import Mathlib

/-!
Verification development for the gmpy arbitrary-precision floating-point
engine.  The repository ships only its doctest oracles (test/gmpy_test_mpf.py,
test2/gmpy_test_mpf.py) and build glue; the numeric engine itself (the C
extension) is not part of the visible source.  Following the specification,
the engine is therefore modelled here from the spec's own description of the
data model (sign / class / mantissa / exponent / precision), the rounding
engine, the parser/formatter, the binary codec, the rational approximation
routine f2q, the context, the allocation cache and the hash contract.
-/

attribute [local semireducible] Rat.add Rat.inv Rat.mul Rat.sub Rat.ofScientific

set_option maxRecDepth 1000000
set_option maxHeartbeats 2000000

namespace Gmpy

/-! ### Bit length of a natural number (fuel-based, kernel-computable) -/

/-- Auxiliary fueled bit-length: number of binary digits of n. -/
def nbitsAux : ℕ → ℕ → ℕ
  | 0, _ => 0
  | f+1, n => if n = 0 then 0 else nbitsAux f (n / 2) + 1

/-- Number of binary digits of n (0 for 0). -/
def nbits (n : ℕ) : ℕ := nbitsAux n n

theorem nbitsAux_zero (f : ℕ) : nbitsAux f 0 = 0 := by
  cases f <;> simp [nbitsAux]

theorem nbitsAux_spec : ∀ (f n : ℕ), n ≤ f → n ≠ 0 →
    2 ^ (nbitsAux f n - 1) ≤ n ∧ n < 2 ^ nbitsAux f n ∧ 1 ≤ nbitsAux f n := by
  intro f
  induction f with
  | zero => intro n hn h0; omega
  | succ f ih =>
    intro n hn h0
    rw [nbitsAux]
    simp only [h0, if_false]
    by_cases hm : n / 2 = 0
    · have h1 : n = 1 := by omega
      subst h1
      simp [hm, nbitsAux_zero]
    · have hle : n / 2 ≤ f := by omega
      obtain ⟨ha, hb, hc⟩ := ih (n / 2) hle hm
      set k := nbitsAux f (n / 2) with hk
      have hp1 : 2 ^ k = 2 * 2 ^ (k - 1) := by
        rw [← pow_succ']
        congr 1
        omega
      have hp2 : 2 ^ (k + 1) = 2 * 2 ^ k := by rw [pow_succ]; ring
      refine ⟨?_, ?_, ?_⟩
      · simp only [Nat.add_sub_cancel]
        omega
      · omega
      · omega

theorem nbits_spec (n : ℕ) (h0 : n ≠ 0) :
    2 ^ (nbits n - 1) ≤ n ∧ n < 2 ^ nbits n ∧ 1 ≤ nbits n :=
  nbitsAux_spec n n le_rfl h0

theorem nbits_lt (n : ℕ) : n < 2 ^ nbits n := by
  by_cases h0 : n = 0
  · subst h0; simp [nbits, nbitsAux]
  · exact (nbits_spec n h0).2.1

/-- Uniqueness of the bit-length characterization. -/
theorem nbits_unique (n t : ℕ) (h1 : 1 ≤ t) (h2 : 2 ^ (t - 1) ≤ n) (h3 : n < 2 ^ t) :
    nbits n = t := by
  have h0 : n ≠ 0 := by
    have : (1:ℕ) ≤ 2 ^ (t - 1) := Nat.one_le_two_pow
    omega
  obtain ⟨ha, hb, hc⟩ := nbits_spec n h0
  set k := nbits n with hk
  by_contra hne
  rcases Nat.lt_or_ge k t with h | h
  · have : 2 ^ k ≤ 2 ^ (t - 1) := Nat.pow_le_pow_right (by norm_num) (by omega)
    omega
  · have ht : t < k := by omega
    have : 2 ^ t ≤ 2 ^ (k - 1) := Nat.pow_le_pow_right (by norm_num) (by omega)
    omega

theorem nbits_mul_pow (n c : ℕ) (h0 : n ≠ 0) : nbits (n * 2 ^ c) = nbits n + c := by
  obtain ⟨ha, hb, hc⟩ := nbits_spec n h0
  refine nbits_unique _ _ (by omega) ?_ ?_
  · have : 2 ^ (nbits n - 1) * 2 ^ c ≤ n * 2 ^ c :=
      Nat.mul_le_mul_right _ ha
    calc 2 ^ (nbits n + c - 1) = 2 ^ (nbits n - 1) * 2 ^ c := by
          rw [← pow_add]; congr 1; omega
      _ ≤ n * 2 ^ c := this
  · calc n * 2 ^ c < 2 ^ nbits n * 2 ^ c :=
        (Nat.mul_lt_mul_right (Nat.two_pow_pos c)).mpr hb
      _ = 2 ^ (nbits n + c) := by rw [← pow_add]

/-! ### Integer logarithm of a positive rational (fuel-based) -/

/-- Fueled integer logarithm for q ≥ 1: largest l with b^l ≤ q. -/
def qlogUpAux (b : ℕ) : ℕ → ℚ → ℕ
  | 0, _ => 0
  | f+1, q => if q < (b:ℚ) then 0 else qlogUpAux b f (q / b) + 1

/-- Fueled co-logarithm for 0 < q < 1: least t ≥ 1 with q·b^t ≥ 1. -/
def qlogDnAux (b : ℕ) : ℕ → ℚ → ℕ
  | 0, _ => 1
  | f+1, q => if 1 ≤ q * b then 1 else qlogDnAux b f (q * b) + 1

/-- Fuel large enough for both logarithm searches on q. -/
def qfuel (q : ℚ) : ℕ := nbits q.num.natAbs + nbits q.den

/-- Integer logarithm of a positive rational in base b: the unique l with
b^l ≤ q < b^(l+1). -/
def qlog (b : ℕ) (q : ℚ) : ℤ :=
  if 1 ≤ q then (qlogUpAux b (qfuel q) q : ℤ) else -(qlogDnAux b (qfuel q) q : ℤ)

theorem qlogUpAux_spec (b : ℕ) (hb : 2 ≤ b) :
    ∀ (f : ℕ) (q : ℚ), 1 ≤ q → q < (b:ℚ) ^ f →
      (b:ℚ) ^ qlogUpAux b f q ≤ q ∧ q < (b:ℚ) ^ (qlogUpAux b f q + 1) := by
  have hbq : (1:ℚ) < (b:ℚ) := by
    have : (2:ℚ) ≤ (b:ℚ) := by exact_mod_cast hb
    linarith
  have hb0 : (0:ℚ) < (b:ℚ) := by linarith
  intro f
  induction f with
  | zero =>
    intro q hq hf
    simp only [pow_zero] at hf
    linarith
  | succ f ih =>
    intro q hq hf
    rw [qlogUpAux]
    by_cases hc : q < (b:ℚ)
    · simp [hc, hq]
    · simp only [hc, if_false]
      have hq' : 1 ≤ q / b := by
        rw [le_div_iff₀ hb0]
        simpa using not_lt.mp hc
      have hf' : q / b < (b:ℚ) ^ f := by
        rw [div_lt_iff₀ hb0, ← pow_succ]
        exact hf
      obtain ⟨h1, h2⟩ := ih (q / b) hq' hf'
      constructor
      · rw [pow_succ]
        calc (b:ℚ) ^ qlogUpAux b f (q / b) * b ≤ q / b * b := by
              exact mul_le_mul_of_nonneg_right h1 (le_of_lt hb0)
          _ = q := by field_simp
      · have : q / b * b < (b:ℚ) ^ (qlogUpAux b f (q / b) + 1) * b :=
          mul_lt_mul_of_pos_right h2 hb0
        rw [div_mul_cancel₀ _ (ne_of_gt hb0)] at this
        calc q < (b:ℚ) ^ (qlogUpAux b f (q / b) + 1) * b := this
          _ = (b:ℚ) ^ (qlogUpAux b f (q / b) + 1 + 1) := (pow_succ _ _).symm

theorem qlogDnAux_spec (b : ℕ) (hb : 2 ≤ b) :
    ∀ (f : ℕ) (q : ℚ), 0 < q → q < 1 → 1 ≤ q * (b:ℚ) ^ f →
      1 ≤ q * (b:ℚ) ^ qlogDnAux b f q ∧ q * (b:ℚ) ^ (qlogDnAux b f q - 1) < 1 ∧
        1 ≤ qlogDnAux b f q := by
  have hbq : (1:ℚ) < (b:ℚ) := by
    have : (2:ℚ) ≤ (b:ℚ) := by exact_mod_cast hb
    linarith
  have hb0 : (0:ℚ) < (b:ℚ) := by linarith
  intro f
  induction f with
  | zero =>
    intro q h0 h1 hf
    simp only [pow_zero, mul_one] at hf
    linarith
  | succ f ih =>
    intro q h0 h1 hf
    rw [qlogDnAux]
    by_cases hc : 1 ≤ q * b
    · simp only [hc, if_true]
      refine ⟨by simpa using hc, by simpa using h1, le_rfl⟩
    · simp only [hc, if_false]
      push_neg at hc
      have h0' : 0 < q * b := mul_pos h0 hb0
      have hf' : 1 ≤ q * b * (b:ℚ) ^ f := by
        calc (1:ℚ) ≤ q * (b:ℚ) ^ (f + 1) := hf
          _ = q * b * (b:ℚ) ^ f := by rw [pow_succ]; ring
      obtain ⟨h2, h3, h4⟩ := ih (q * b) h0' hc hf'
      set t := qlogDnAux b f (q * b) with ht
      refine ⟨?_, ?_, by omega⟩
      · calc (1:ℚ) ≤ q * b * (b:ℚ) ^ t := h2
          _ = q * (b:ℚ) ^ (t + 1) := by rw [pow_succ]; ring
      · have hsplit : (b:ℚ) ^ t = (b:ℚ) * (b:ℚ) ^ (t - 1) := by
          conv_lhs => rw [show t = (t - 1) + 1 by omega]
          rw [pow_succ']
        calc q * (b:ℚ) ^ (t + 1 - 1) = q * b * (b:ℚ) ^ (t - 1) := by
              rw [Nat.add_sub_cancel, hsplit]; ring
          _ < 1 := h3

theorem rat_num_eq_mul_den (q : ℚ) : (q.num : ℚ) = q * (q.den : ℚ) :=
  (Rat.mul_den_eq_num q).symm

theorem rat_le_num (q : ℚ) (h : 0 < q) : q ≤ (q.num : ℚ) := by
  have hd : (1:ℚ) ≤ (q.den : ℚ) := by
    have := q.den_pos
    exact_mod_cast this
  rw [rat_num_eq_mul_den]
  exact le_mul_of_one_le_right (le_of_lt h) hd

theorem rat_lt_pow_qfuel (b : ℕ) (hb : 2 ≤ b) (q : ℚ) (h : 0 < q) :
    q < (b:ℚ) ^ qfuel q := by
  have h1 : q ≤ (q.num : ℚ) := rat_le_num q h
  have hnum : (0:ℤ) < q.num := Rat.num_pos.mpr h
  have h2 : (q.num : ℚ) = (q.num.natAbs : ℚ) := by
    rw [Int.cast_natAbs]
    rw [abs_of_pos]
    exact_mod_cast hnum
  have h3 : (q.num.natAbs : ℚ) < (2:ℚ) ^ nbits q.num.natAbs := by
    exact_mod_cast nbits_lt q.num.natAbs
  have h4 : (2:ℚ) ^ nbits q.num.natAbs ≤ (b:ℚ) ^ nbits q.num.natAbs := by
    apply pow_le_pow_left₀ (by norm_num)
    exact_mod_cast hb
  have h5 : (b:ℚ) ^ nbits q.num.natAbs ≤ (b:ℚ) ^ qfuel q := by
    apply pow_le_pow_right₀
    · have : (2:ℚ) ≤ (b:ℚ) := by exact_mod_cast hb
      linarith
    · unfold qfuel; omega
  calc q ≤ (q.num : ℚ) := h1
    _ = (q.num.natAbs : ℚ) := h2
    _ < (2:ℚ) ^ nbits q.num.natAbs := h3
    _ ≤ (b:ℚ) ^ nbits q.num.natAbs := h4
    _ ≤ (b:ℚ) ^ qfuel q := h5

theorem one_le_mul_pow_qfuel (b : ℕ) (hb : 2 ≤ b) (q : ℚ) (h : 0 < q) :
    1 ≤ q * (b:ℚ) ^ qfuel q := by
  have hnum : (0:ℤ) < q.num := Rat.num_pos.mpr h
  have hd0 : (0:ℚ) < (q.den : ℚ) := by exact_mod_cast q.den_pos
  have h1 : (1:ℚ) / (q.den : ℚ) ≤ q := by
    rw [div_le_iff₀ hd0]
    have hn1 : (1:ℚ) ≤ (q.num : ℚ) := by exact_mod_cast hnum
    have := rat_num_eq_mul_den q
    linarith
  have h3 : (q.den : ℚ) < (2:ℚ) ^ nbits q.den := by
    exact_mod_cast nbits_lt q.den
  have h4 : (2:ℚ) ^ nbits q.den ≤ (b:ℚ) ^ nbits q.den := by
    apply pow_le_pow_left₀ (by norm_num)
    exact_mod_cast hb
  have h5 : (b:ℚ) ^ nbits q.den ≤ (b:ℚ) ^ qfuel q := by
    apply pow_le_pow_right₀
    · have : (2:ℚ) ≤ (b:ℚ) := by exact_mod_cast hb
      linarith
    · unfold qfuel; omega
  have hd : (q.den : ℚ) ≤ (b:ℚ) ^ qfuel q := by linarith
  calc (1:ℚ) = (1 / (q.den : ℚ)) * (q.den : ℚ) := by field_simp
    _ ≤ q * (b:ℚ) ^ qfuel q := by
        apply mul_le_mul h1 hd (le_of_lt hd0)
        linarith [rat_lt_pow_qfuel b hb q h]

/-- Characterization of qlog: for 2 ≤ b and 0 < q, b^(qlog b q) ≤ q < b^(qlog b q + 1). -/
theorem qlog_spec (b : ℕ) (q : ℚ) (hb : 2 ≤ b) (hq : 0 < q) :
    (b:ℚ) ^ qlog b q ≤ q ∧ q < (b:ℚ) ^ (qlog b q + 1) := by
  have hbq : (1:ℚ) < (b:ℚ) := by
    have : (2:ℚ) ≤ (b:ℚ) := by exact_mod_cast hb
    linarith
  have hb0 : (0:ℚ) < (b:ℚ) := by linarith
  unfold qlog
  by_cases hc : 1 ≤ q
  · simp only [hc, if_true]
    obtain ⟨h1, h2⟩ := qlogUpAux_spec b hb (qfuel q) q hc (rat_lt_pow_qfuel b hb q hq)
    constructor
    · rw [zpow_natCast]; exact h1
    · have : ((qlogUpAux b (qfuel q) q : ℤ) + 1) = ((qlogUpAux b (qfuel q) q + 1 : ℕ) : ℤ) := by
        push_cast; ring
      rw [this, zpow_natCast]
      exact h2
  · simp only [hc, if_false]
    push_neg at hc
    obtain ⟨h1, h2, h3⟩ := qlogDnAux_spec b hb (qfuel q) q hq hc
      (one_le_mul_pow_qfuel b hb q hq)
    set t := qlogDnAux b (qfuel q) q with htdef
    have hbt : (0:ℚ) < (b:ℚ) ^ t := pow_pos hb0 t
    constructor
    · rw [zpow_neg, zpow_natCast, inv_le_iff_one_le_mul₀ hbt]
      linarith [mul_comm q ((b:ℚ) ^ t)]
    · have hbt1 : (0:ℚ) < (b:ℚ) ^ (t - 1) := pow_pos hb0 _
      have hlt : q < ((b:ℚ) ^ (t - 1))⁻¹ := by
        rw [inv_eq_one_div, lt_div_iff₀ hbt1]
        linarith
      have heq : (b:ℚ) ^ (-(t:ℤ) + 1) = ((b:ℚ) ^ (t - 1))⁻¹ := by
        rw [← zpow_natCast (b:ℚ) (t - 1), ← zpow_neg]
        congr 1
        omega
      rw [heq]
      exact hlt


/-! ### The Value data model (spec section 3) -/

/-- Modelled from the spec: the class of a Value is a closed sum
Zero / Finite / Infinity / NaN. -/
inductive MpfClass
  | zero
  | finite
  | inf
  | nan
deriving DecidableEq

/-- Modelled from the spec: a Value carries sign, class, mantissa, signed
exponent and a bit precision.  A finite nonzero value denotes
±mant·2^exp and is kept normalized: 2^(prec-1) ≤ mant < 2^prec. -/
structure Mpf where
  neg : Bool
  cls : MpfClass
  mant : ℕ
  exp : ℤ
  prec : ℕ
deriving DecidableEq

/-- Well-formedness invariant of a Value: positive precision, and a
normalized mantissa for finite values. -/
def Mpf.Wf (v : Mpf) : Prop :=
  1 ≤ v.prec ∧ (v.cls = .finite → 2 ^ (v.prec - 1) ≤ v.mant ∧ v.mant < 2 ^ v.prec)

instance (v : Mpf) : Decidable v.Wf := by
  unfold Mpf.Wf
  infer_instance

/-- Mathematical value of a Value (0 for zero, infinity and NaN). -/
def Mpf.val (v : Mpf) : ℚ :=
  match v.cls with
  | .finite => (if v.neg then -1 else 1) * (v.mant : ℚ) * (2:ℚ) ^ v.exp
  | _ => 0

/-- Modelled from the spec: mathematical equality of Values; +0 equals -0,
NaN is unequal to everything including itself, infinities compare by sign. -/
def mEq (u v : Mpf) : Bool :=
  match u.cls, v.cls with
  | .nan, _ => false
  | _, .nan => false
  | .inf, .inf => u.neg == v.neg
  | .inf, _ => false
  | _, .inf => false
  | _, _ => decide (u.val = v.val)

/-! ### Rounding to nearest, ties to even (the Rounding Engine, spec 4.1) -/

/-- Round a nonnegative rational to a natural number, nearest, ties to even. -/
def rndHalfEven (s : ℚ) : ℕ :=
  if s - ((⌊s⌋).toNat : ℚ) < 1/2 then (⌊s⌋).toNat
  else if (1:ℚ)/2 < s - ((⌊s⌋).toNat : ℚ) then (⌊s⌋).toNat + 1
  else if (⌊s⌋).toNat % 2 = 0 then (⌊s⌋).toNat else (⌊s⌋).toNat + 1

/-- Working exponent for rounding q to p bits: scaling q by 2^-(rndE p q)
puts it in [2^(p-1), 2^p). -/
def rndE (p : ℕ) (q : ℚ) : ℤ := qlog 2 q - ((p : ℤ) - 1)

/-- Modelled from the spec: round a positive rational to p significand bits,
nearest-even, returning the normalized (mantissa, exponent) pair. -/
def rndME (p : ℕ) (q : ℚ) : ℕ × ℤ :=
  if rndHalfEven (q / (2:ℚ) ^ rndE p q) = 2 ^ p then (2 ^ (p - 1), rndE p q + 1)
  else (rndHalfEven (q / (2:ℚ) ^ rndE p q), rndE p q)

theorem rndHalfEven_floor (s : ℚ) (n : ℕ) (h1 : (n:ℚ) ≤ s) (h2 : s < (n:ℚ) + 1) :
    (⌊s⌋).toNat = n := by
  have hfl : ⌊s⌋ = (n:ℤ) := by
    rw [Int.floor_eq_iff]
    refine ⟨by exact_mod_cast h1, by push_cast; linarith⟩
  rw [hfl]
  simp

theorem rndHalfEven_of_lo (s : ℚ) (n : ℕ) (h1 : (n:ℚ) ≤ s) (h2 : s < (n:ℚ) + 1/2) :
    rndHalfEven s = n := by
  unfold rndHalfEven
  rw [rndHalfEven_floor s n h1 (by linarith)]
  have hc : s - (n:ℚ) < 1/2 := by linarith
  rw [if_pos hc]

theorem rndHalfEven_of_hi (s : ℚ) (n : ℕ) (h1 : (n:ℚ) + 1/2 < s) (h2 : s < (n:ℚ) + 1) :
    rndHalfEven s = n + 1 := by
  unfold rndHalfEven
  rw [rndHalfEven_floor s n (by linarith) h2]
  have hc1 : ¬(s - (n:ℚ) < 1/2) := by push_neg; linarith
  have hc2 : (1:ℚ)/2 < s - (n:ℚ) := by linarith
  rw [if_neg hc1, if_pos hc2]

theorem rndHalfEven_bounds (s : ℚ) (n : ℕ) (h1 : (n:ℚ) ≤ s) (h2 : s < (n:ℚ) + 1) :
    n ≤ rndHalfEven s ∧ rndHalfEven s ≤ n + 1 := by
  unfold rndHalfEven
  rw [rndHalfEven_floor s n h1 h2]
  split_ifs <;> omega

/-- Helper: identify qlog base 2 through a power-of-two bracket. -/
theorem qlog_eq_of_bracket (b : ℕ) (q : ℚ) (l : ℤ) (hb : 2 ≤ b) (hq : 0 < q)
    (h1 : (b:ℚ) ^ l ≤ q) (h2 : q < (b:ℚ) ^ (l + 1)) : qlog b q = l := by
  obtain ⟨g1, g2⟩ := qlog_spec b q hb hq
  have hbq : (1:ℚ) < (b:ℚ) := by
    have : (2:ℚ) ≤ (b:ℚ) := by exact_mod_cast hb
    linarith
  by_contra hne
  rcases lt_or_gt_of_ne hne with h | h
  · have : (b:ℚ) ^ (qlog b q + 1) ≤ (b:ℚ) ^ l := zpow_le_zpow_right₀ (le_of_lt hbq) (by omega)
    linarith
  · have : (b:ℚ) ^ (l + 1) ≤ (b:ℚ) ^ qlog b q := zpow_le_zpow_right₀ (le_of_lt hbq) (by omega)
    linarith

theorem qlog2_eq_of_bracket (q : ℚ) (l : ℤ) (hq : 0 < q)
    (h1 : (2:ℚ) ^ l ≤ q) (h2 : q < (2:ℚ) ^ (l + 1)) : qlog 2 q = l := by
  apply qlog_eq_of_bracket 2 q l le_rfl hq
  · push_cast
    exact h1
  · push_cast
    exact h2

theorem two_zpow_pos (e : ℤ) : (0:ℚ) < (2:ℚ) ^ e := zpow_pos (by norm_num) e

theorem two_zpow_natCast (p : ℕ) (hp : 1 ≤ p) :
    ((2 ^ (p - 1) : ℕ) : ℚ) = (2:ℚ) ^ ((p:ℤ) - 1) := by
  push_cast
  rw [← zpow_natCast]
  congr 1
  omega

theorem two_zpow_natCast' (p : ℕ) : ((2 ^ p : ℕ) : ℚ) = (2:ℚ) ^ (p:ℤ) := by
  push_cast
  rw [← zpow_natCast]


theorem rndHalfEven_mem (s : ℚ) :
    (⌊s⌋).toNat ≤ rndHalfEven s ∧ rndHalfEven s ≤ (⌊s⌋).toNat + 1 := by
  unfold rndHalfEven
  split_ifs <;> omega

/-- Normalization of rounding: the produced mantissa is a p-bit mantissa. -/
theorem rndME_norm (p : ℕ) (q : ℚ) (hp : 1 ≤ p) (hq : 0 < q) :
    2 ^ (p - 1) ≤ (rndME p q).1 ∧ (rndME p q).1 < 2 ^ p := by
  obtain ⟨g1, g2⟩ := qlog_spec 2 q le_rfl hq
  push_cast at g1 g2
  unfold rndME rndE
  set L := qlog 2 q with hL
  set e : ℤ := L - ((p:ℤ) - 1) with he
  set s : ℚ := q / (2:ℚ) ^ e with hs
  have ht : (0:ℚ) < (2:ℚ) ^ e := two_zpow_pos e
  have hs1 : (2:ℚ) ^ ((p:ℤ) - 1) ≤ s := by
    rw [hs, le_div_iff₀ ht, ← zpow_add₀ (by norm_num : (2:ℚ) ≠ 0)]
    calc (2:ℚ) ^ ((p:ℤ) - 1 + e) = (2:ℚ) ^ L := by congr 1; omega
      _ ≤ q := g1
  have hs2 : s < (2:ℚ) ^ (p:ℤ) := by
    rw [hs, div_lt_iff₀ ht, ← zpow_add₀ (by norm_num : (2:ℚ) ≠ 0)]
    calc q < (2:ℚ) ^ (L + 1) := g2
      _ = (2:ℚ) ^ ((p:ℤ) + e) := by congr 1; omega
  have hfl1 : ((2 ^ (p - 1) : ℕ) : ℤ) ≤ ⌊s⌋ := by
    rw [Int.le_floor]
    calc ((((2:ℕ) ^ (p - 1) : ℕ) : ℤ) : ℚ) = ((2 ^ (p - 1) : ℕ) : ℚ) := by push_cast; ring
      _ = (2:ℚ) ^ ((p:ℤ) - 1) := two_zpow_natCast p hp
      _ ≤ s := hs1
  have hfl2 : ⌊s⌋ < ((2 ^ p : ℕ) : ℤ) := by
    rw [Int.floor_lt]
    calc s < (2:ℚ) ^ (p:ℤ) := hs2
      _ = ((2 ^ p : ℕ) : ℚ) := (two_zpow_natCast' p).symm
      _ = ((((2:ℕ) ^ p : ℕ) : ℤ) : ℚ) := by push_cast; ring
  obtain ⟨hb1, hb2⟩ := rndHalfEven_mem s
  have hps : 2 ^ p = 2 ^ (p - 1) * 2 := by
    rw [← pow_succ]
    congr 1
    omega
  have h2p1 : (1:ℕ) ≤ 2 ^ (p - 1) := Nat.one_le_two_pow
  by_cases hcase : rndHalfEven s = 2 ^ p
  · rw [if_pos hcase]
    exact ⟨le_rfl, by omega⟩
  · rw [if_neg hcase]
    exact ⟨by omega, by omega⟩

/-- Key exactness property of nearest-even rounding: any rational within a
quarter of an ulp of a representable p-bit value rounds to exactly that
value, in its normalized representation. -/
theorem rndME_exact (p m : ℕ) (e : ℤ) (q : ℚ) (hp : 1 ≤ p)
    (hm1 : 2 ^ (p - 1) ≤ m) (hm2 : m < 2 ^ p)
    (herr : |q - (m : ℚ) * (2:ℚ) ^ e| < (2:ℚ) ^ e / 4) :
    rndME p q = (m, e) := by
  have ht : (0:ℚ) < (2:ℚ) ^ e := two_zpow_pos e
  obtain ⟨hab1, hab2⟩ := abs_sub_lt_iff.mp herr
  have hm0 : (1:ℕ) ≤ m := le_trans Nat.one_le_two_pow hm1
  have hmq1 : (1:ℚ) ≤ (m:ℚ) := by exact_mod_cast hm0
  have hge : (1:ℚ) * (2:ℚ) ^ e ≤ (m:ℚ) * (2:ℚ) ^ e :=
    mul_le_mul_of_nonneg_right hmq1 (le_of_lt ht)
  have hq0 : 0 < q := by linarith
  have hmlow : (2:ℚ) ^ ((p:ℤ) - 1) ≤ (m:ℚ) := by
    rw [← two_zpow_natCast p hp]
    exact_mod_cast hm1
  have hmhigh1 : (m:ℚ) + 1 ≤ (2:ℚ) ^ (p:ℤ) := by
    rw [← two_zpow_natCast' p]
    exact_mod_cast hm2
  by_cases hcase : m = 2 ^ (p - 1) ∧ q < (m:ℚ) * (2:ℚ) ^ e
  · obtain ⟨hmeq, hqlt⟩ := hcase
    have hmq : (m:ℚ) = (2:ℚ) ^ ((p:ℤ) - 1) := by
      rw [hmeq]
      exact two_zpow_natCast p hp
    have hveq : (m:ℚ) * (2:ℚ) ^ e = (2:ℚ) ^ (e + (p:ℤ) - 2 + 1) := by
      rw [hmq, ← zpow_add₀ (by norm_num : (2:ℚ) ≠ 0)]
      congr 1
      ring
    have hlow : (2:ℚ) ^ (e + (p:ℤ) - 2) ≤ q := by
      have e1 : (2:ℚ) ^ (e + (p:ℤ) - 2 + 1) = (2:ℚ) ^ (e + (p:ℤ) - 2) * 2 :=
        zpow_add_one₀ (by norm_num) _
      have e3 : (2:ℚ) ^ e / 4 = (2:ℚ) ^ (e - 2) := by
        rw [zpow_sub₀ (by norm_num : (2:ℚ) ≠ 0)]
        norm_num
      have e2 : (2:ℚ) ^ e / 4 ≤ (2:ℚ) ^ (e + (p:ℤ) - 2) := by
        rw [e3]
        exact zpow_le_zpow_right₀ (by norm_num) (by omega)
      have h2 : (m:ℚ) * (2:ℚ) ^ e - (2:ℚ) ^ e / 4 < q := by linarith
      rw [hveq] at h2
      linarith
    have hhigh : q < (2:ℚ) ^ (e + (p:ℤ) - 2 + 1) := by
      rw [← hveq]
      exact hqlt
    have hqlog : qlog 2 q = e + (p:ℤ) - 2 := qlog2_eq_of_bracket q _ hq0 hlow hhigh
    have heE : rndE p q = e - 1 := by
      unfold rndE
      rw [hqlog]
      ring
    set s : ℚ := q / (2:ℚ) ^ (e - 1) with hs
    have ht1 : (0:ℚ) < (2:ℚ) ^ (e - 1 : ℤ) := two_zpow_pos _
    have hsplit : (2:ℚ) ^ e = (2:ℚ) ^ (e - 1 : ℤ) * 2 := by
      rw [← zpow_add_one₀ (by norm_num : (2:ℚ) ≠ 0)]
      congr 1
      ring
    have hub : s < (2 * (m:ℚ) - 1) + 1 := by
      rw [hs, div_lt_iff₀ ht1]
      calc q < (m:ℚ) * (2:ℚ) ^ e := hqlt
        _ = (2 * (m:ℚ) - 1 + 1) * (2:ℚ) ^ (e - 1 : ℤ) := by rw [hsplit]; ring
    have hlb : (2 * (m:ℚ) - 1) + 1/2 < s := by
      rw [hs, lt_div_iff₀ ht1]
      have expand : ((2 * (m:ℚ) - 1) + 1/2) * (2:ℚ) ^ (e - 1 : ℤ)
          = (m:ℚ) * (2:ℚ) ^ e - (2:ℚ) ^ e / 4 := by
        rw [hsplit]
        ring
      rw [expand]
      linarith
    have hcast : ((2 * m - 1 : ℕ) : ℚ) = 2 * (m:ℚ) - 1 := by
      rw [Nat.cast_sub (by omega : 1 ≤ 2 * m)]
      push_cast
      ring
    have hrnd : rndHalfEven s = 2 * m := by
      have hr := rndHalfEven_of_hi s (2 * m - 1) (by rw [hcast]; exact hlb) (by rw [hcast]; exact hub)
      rw [hr]
      omega
    have hfold : 2 * m = 2 ^ p := by
      rw [hmeq, ← pow_succ']
      congr 1
      omega
    unfold rndME
    rw [heE, ← hs, hrnd]
    rw [if_pos hfold]
    rw [hmeq, show e - 1 + 1 = e from by ring]
  · push_neg at hcase
    have hlow : (2:ℚ) ^ (e + (p:ℤ) - 1) ≤ q := by
      have hexp : (2:ℚ) ^ (e + (p:ℤ) - 1) = (2:ℚ) ^ ((p:ℤ) - 1) * (2:ℚ) ^ e := by
        rw [← zpow_add₀ (by norm_num : (2:ℚ) ≠ 0)]
        congr 1
        ring
      by_cases hq_ge : (m:ℚ) * (2:ℚ) ^ e ≤ q
      · calc (2:ℚ) ^ (e + (p:ℤ) - 1) = (2:ℚ) ^ ((p:ℤ) - 1) * (2:ℚ) ^ e := hexp
          _ ≤ (m:ℚ) * (2:ℚ) ^ e := mul_le_mul_of_nonneg_right hmlow (le_of_lt ht)
          _ ≤ q := hq_ge
      · push_neg at hq_ge
        have hmne : m ≠ 2 ^ (p - 1) := by
          intro hcontra
          exact absurd (hcase hcontra) (not_le.mpr hq_ge)
        have hm1' : 2 ^ (p - 1) + 1 ≤ m := by omega
        have hmlow' : (2:ℚ) ^ ((p:ℤ) - 1) + 1 ≤ (m:ℚ) := by
          have : ((2 ^ (p - 1) + 1 : ℕ) : ℚ) ≤ (m:ℚ) := by exact_mod_cast hm1'
          calc (2:ℚ) ^ ((p:ℤ) - 1) + 1 = ((2 ^ (p - 1) + 1 : ℕ) : ℚ) := by
                rw [← two_zpow_natCast p hp]
                push_cast
                ring
            _ ≤ (m:ℚ) := this
        have hmul : ((2:ℚ) ^ ((p:ℤ) - 1) + 1) * (2:ℚ) ^ e ≤ (m:ℚ) * (2:ℚ) ^ e :=
          mul_le_mul_of_nonneg_right hmlow' (le_of_lt ht)
        have hexpand : ((2:ℚ) ^ ((p:ℤ) - 1) + 1) * (2:ℚ) ^ e
            = (2:ℚ) ^ ((p:ℤ) - 1) * (2:ℚ) ^ e + (2:ℚ) ^ e := by ring
        rw [hexp]
        linarith [hexpand ▸ hmul]
    have hhigh : q < (2:ℚ) ^ (e + (p:ℤ) - 1 + 1) := by
      have hexp2 : (2:ℚ) ^ (e + (p:ℤ) - 1 + 1) = (2:ℚ) ^ (p:ℤ) * (2:ℚ) ^ e := by
        rw [← zpow_add₀ (by norm_num : (2:ℚ) ≠ 0)]
        congr 1
        ring
      have hmul : (m:ℚ) * (2:ℚ) ^ e + 1 * (2:ℚ) ^ e ≤ (2:ℚ) ^ (p:ℤ) * (2:ℚ) ^ e := by
        have : ((m:ℚ) + 1) * (2:ℚ) ^ e ≤ (2:ℚ) ^ (p:ℤ) * (2:ℚ) ^ e :=
          mul_le_mul_of_nonneg_right hmhigh1 (le_of_lt ht)
        linarith [this]
      rw [hexp2]
      linarith
    have hqlog : qlog 2 q = e + (p:ℤ) - 1 := qlog2_eq_of_bracket q _ hq0 hlow hhigh
    have heE : rndE p q = e := by
      unfold rndE
      rw [hqlog]
      ring
    set s : ℚ := q / (2:ℚ) ^ e with hs
    have hs_lb : (m:ℚ) - 1/4 < s := by
      rw [hs, lt_div_iff₀ ht]
      have expand : ((m:ℚ) - 1/4) * (2:ℚ) ^ e = (m:ℚ) * (2:ℚ) ^ e - (2:ℚ) ^ e / 4 := by ring
      rw [expand]
      linarith
    have hs_ub : s < (m:ℚ) + 1/4 := by
      rw [hs, div_lt_iff₀ ht]
      have expand : ((m:ℚ) + 1/4) * (2:ℚ) ^ e = (m:ℚ) * (2:ℚ) ^ e + (2:ℚ) ^ e / 4 := by ring
      rw [expand]
      linarith
    have hrnd : rndHalfEven s = m := by
      by_cases hsm : (m:ℚ) ≤ s
      · exact rndHalfEven_of_lo s m hsm (by linarith)
      · push_neg at hsm
        have hcast : ((m - 1 : ℕ) : ℚ) = (m:ℚ) - 1 := by
          rw [Nat.cast_sub hm0]
          norm_num
        have hr := rndHalfEven_of_hi s (m - 1) (by rw [hcast]; linarith) (by rw [hcast]; linarith)
        rw [hr]
        omega
    unfold rndME
    rw [heE, ← hs, hrnd]
    rw [if_neg (by omega : ¬ m = 2 ^ p)]

/-- Modelled from the spec: construct a Value from an exact rational by
rounding to p bits with the Nearest (ties-to-even) mode; this is the
reference "round the exact mathematical value directly" operation. -/
def ofRat (p : ℕ) (q : ℚ) : Mpf :=
  if q = 0 then ⟨false, .zero, 0, 0, p⟩
  else ⟨decide (q < 0), .finite, (rndME p |q|).1, (rndME p |q|).2, p⟩

theorem ofRat_wf (p : ℕ) (q : ℚ) (hp : 1 ≤ p) : (ofRat p q).Wf := by
  unfold ofRat Mpf.Wf
  by_cases h0 : q = 0
  · simp [h0, hp]
  · have habs : 0 < |q| := abs_pos.mpr h0
    obtain ⟨h1, h2⟩ := rndME_norm p |q| hp habs
    simp only [h0, if_false]
    exact ⟨hp, fun _ => ⟨h1, h2⟩⟩

theorem val_finite (v : Mpf) (h : v.cls = .finite) :
    v.val = (if v.neg then -1 else 1) * (v.mant : ℚ) * (2:ℚ) ^ v.exp := by
  unfold Mpf.val
  rw [h]

/-- Rounding a value that is already representable at its own precision
reproduces it exactly. -/
theorem ofRat_fixed (v : Mpf) (hw : v.Wf) (hf : v.cls = .finite) :
    ofRat v.prec v.val = v := by
  obtain ⟨hp, hinv⟩ := hw
  obtain ⟨hm1, hm2⟩ := hinv hf
  rcases v with ⟨n, c, mm, ee, pp⟩
  simp only at hf hm1 hm2 hp
  subst hf
  have hm0 : (1:ℕ) ≤ mm := le_trans Nat.one_le_two_pow hm1
  have ht : (0:ℚ) < (2:ℚ) ^ ee := two_zpow_pos _
  have hm0q : (0:ℚ) < (mm : ℚ) := by exact_mod_cast hm0
  have hprod : (0:ℚ) < (mm:ℚ) * (2:ℚ) ^ ee := mul_pos hm0q ht
  have hrnd : rndME pp ((mm:ℚ) * (2:ℚ) ^ ee) = (mm, ee) := by
    apply rndME_exact pp mm ee _ hp hm1 hm2
    simp only [sub_self, abs_zero]
    positivity
  cases n with
  | false =>
    have hval : Mpf.val ⟨false, .finite, mm, ee, pp⟩ = (mm:ℚ) * (2:ℚ) ^ ee := by
      rw [val_finite _ rfl]
      norm_num
    rw [hval]
    unfold ofRat
    rw [if_neg (ne_of_gt hprod)]
    rw [abs_of_pos hprod, hrnd]
    have hdec : decide ((mm:ℚ) * (2:ℚ) ^ ee < 0) = false :=
      decide_eq_false (not_lt.mpr (le_of_lt hprod))
    rw [hdec]
  | true =>
    have hval : Mpf.val ⟨true, .finite, mm, ee, pp⟩ = -((mm:ℚ) * (2:ℚ) ^ ee) := by
      rw [val_finite _ rfl]
      norm_num
    rw [hval]
    have hneg : -((mm:ℚ) * (2:ℚ) ^ ee) < 0 := neg_neg_iff_pos.mpr hprod
    unfold ofRat
    rw [if_neg (ne_of_lt hneg)]
    rw [abs_neg, abs_of_pos hprod, hrnd]
    have hdec : decide (-((mm:ℚ) * (2:ℚ) ^ ee) < 0) = true := decide_eq_true hneg
    rw [hdec]

/-! ### Parser / Formatter (spec section 4.3) -/

/-- Modelled from the spec: a textual numeric literal at radix b — sign,
digit string (shallow-embedded as the base-b integer it spells together with
its length) and the radix-point position; Infinity and NaN use distinguished
literals (cls = inf / nan). -/
structure Literal where
  cls : MpfClass
  neg : Bool
  sig : ℕ
  len : ℕ
  point : ℤ
deriving DecidableEq

/-- Magnitude denoted by a numeric literal at radix b. -/
def Literal.mag (L : Literal) (b : ℕ) : ℚ := (L.sig : ℚ) * (b:ℚ) ^ (L.point - (L.len:ℤ))

/-- Modelled from the spec: parse(text, base, precision) converts the digit
string exactly to a rational and performs a single rounding to the requested
precision (exact-then-round, never approximate-then-round-twice). -/
def parseLit (L : Literal) (b : ℕ) (p : ℕ) : Mpf :=
  match L.cls with
  | .nan => ⟨false, .nan, 0, 0, p⟩
  | .inf => ⟨L.neg, .inf, 0, 0, p⟩
  | _ =>
    if L.sig = 0 then ⟨L.neg, .zero, 0, 0, p⟩
    else ⟨L.neg, .finite, (rndME p (L.mag b)).1, (rndME p (L.mag b)).2, p⟩

/-- Digit extraction: the d most significant base-b digits of q > 0, rounded
to nearest in the last digit, with the radix-point position; a carry out of
the top digit renormalizes to a one-digit-higher representation. -/
def digitsAt (q : ℚ) (b : ℕ) (d : ℕ) : ℕ × ℤ :=
  if ⌊q * (b:ℚ) ^ ((d:ℤ) - (qlog b q + 1)) + 1/2⌋ = (b:ℤ) ^ d then
    (b ^ (d - 1), qlog b q + 2)
  else ((⌊q * (b:ℚ) ^ ((d:ℤ) - (qlog b q + 1)) + 1/2⌋).toNat, qlog b q + 1)

/-- Format a finite Value with exactly d significant base-b digits. -/
def fmtLit (v : Mpf) (b : ℕ) (d : ℕ) : Literal :=
  ⟨.finite, v.neg, (digitsAt ((v.mant:ℚ) * (2:ℚ) ^ v.exp) b d).1, d,
    (digitsAt ((v.mant:ℚ) * (2:ℚ) ^ v.exp) b d).2⟩

/-- Test whether formatting v with d digits parses back to v exactly. -/
def fmtOK (v : Mpf) (b : ℕ) (d : ℕ) : Bool := parseLit (fmtLit v b d) b v.prec == v

/-- First s ≤ i < s+c with f i = true, else s+c. -/
def searchD (f : ℕ → Bool) : ℕ → ℕ → ℕ
  | s, 0 => s
  | s, c+1 => if f s then s else searchD f (s+1) c

/-- Modelled from the spec: format(value, base, 0) — digit_count 0 means
"use the minimum digits that round-trip exactly at the value's own
precision"; returns (digit string, point position) and the precision used.
Zero formats as the single digit 0, Infinity and NaN as distinguished
literals. -/
def formatMin (v : Mpf) (b : ℕ) : Literal × ℕ :=
  match v.cls with
  | .nan => (⟨.nan, false, 0, 0, 0⟩, v.prec)
  | .inf => (⟨.inf, v.neg, 0, 0, 0⟩, v.prec)
  | .zero => (⟨.zero, v.neg, 0, 1, 1⟩, v.prec)
  | .finite => (fmtLit v b (searchD (fmtOK v b) 1 (v.prec + 2)), v.prec)

/-- Modelled from the spec: format(value, base, d) with an explicit positive
digit count d. -/
def formatAt (v : Mpf) (b : ℕ) (d : ℕ) : Literal × ℕ :=
  match v.cls with
  | .nan => (⟨.nan, false, 0, 0, 0⟩, v.prec)
  | .inf => (⟨.inf, v.neg, 0, 0, 0⟩, v.prec)
  | .zero => (⟨.zero, v.neg, 0, d, 1⟩, v.prec)
  | .finite => (fmtLit v b d, v.prec)

theorem searchD_ge (f : ℕ → Bool) : ∀ (c s : ℕ), s ≤ searchD f s c := by
  intro c
  induction c with
  | zero =>
    intro s
    simp [searchD]
  | succ c ih =>
    intro s
    rw [searchD]
    split
    · exact le_rfl
    · exact le_trans (by omega) (ih (s+1))

theorem searchD_found (f : ℕ → Bool) : ∀ (c s : ℕ), f (s + c) = true →
    f (searchD f s c) = true := by
  intro c
  induction c with
  | zero =>
    intro s h
    simpa [searchD] using h
  | succ c ih =>
    intro s h
    rw [searchD]
    by_cases hs : f s
    · rw [if_pos hs]
      exact hs
    · rw [if_neg hs]
      apply ih
      rw [show s + 1 + c = s + (c + 1) from by omega]
      exact h

theorem cast_pow_sub_one (b d : ℕ) (hd : 1 ≤ d) :
    ((b ^ (d - 1) : ℕ) : ℚ) = (b:ℚ) ^ ((d:ℤ) - 1) := by
  push_cast
  rw [← zpow_natCast]
  congr 1
  omega

theorem cast_pow_int (b d : ℕ) : ((b ^ d : ℕ) : ℚ) = (b:ℚ) ^ (d:ℤ) := by
  push_cast
  rw [← zpow_natCast]

theorem mag_mk (cc : MpfClass) (n : Bool) (S ln : ℕ) (pt : ℤ) (b : ℕ) :
    Literal.mag ⟨cc, n, S, ln, pt⟩ b = (S : ℚ) * (b:ℚ) ^ (pt - (ln:ℤ)) := rfl

theorem parseLit_finite (n : Bool) (S ln : ℕ) (pt : ℤ) (b p : ℕ) (hsig : S ≠ 0) :
    parseLit ⟨.finite, n, S, ln, pt⟩ b p
      = ⟨n, .finite, (rndME p ((S : ℚ) * (b:ℚ) ^ (pt - (ln:ℤ)))).1,
          (rndME p ((S : ℚ) * (b:ℚ) ^ (pt - (ln:ℤ)))).2, p⟩ := by
  unfold parseLit
  rw [mag_mk]
  rw [if_neg hsig]

/-- Digit extraction produces exactly d digits (no leading zero) whose
denoted magnitude is within half of one unit in the last digit of q. -/
theorem digitsAt_spec (q : ℚ) (b d : ℕ) (hb : 2 ≤ b) (hq : 0 < q) (hd : 1 ≤ d)
    (D : ℕ) (pt : ℤ) (hD : digitsAt q b d = (D, pt)) :
    b ^ (d - 1) ≤ D ∧ D < b ^ d ∧
      |(D:ℚ) * (b:ℚ) ^ (pt - (d:ℤ)) - q| ≤ (b:ℚ) ^ (qlog b q + 1 - (d:ℤ)) / 2 := by
  have hb0 : (0:ℚ) < (b:ℚ) := by
    have : (2:ℚ) ≤ (b:ℚ) := by exact_mod_cast hb
    linarith
  obtain ⟨g1, g2⟩ := qlog_spec b q hb hq
  unfold digitsAt at hD
  set k : ℤ := qlog b q + 1 with hk
  set x : ℚ := q * (b:ℚ) ^ ((d:ℤ) - k) with hx
  have htk : (0:ℚ) < (b:ℚ) ^ ((d:ℤ) - k) := zpow_pos hb0 _
  have hg1 : (b:ℚ) ^ (k - 1) ≤ q := by
    rw [show k - 1 = qlog b q from by rw [hk]; ring]
    exact g1
  have hg2 : q < (b:ℚ) ^ k := by
    rw [hk]
    exact g2
  have hx1 : (b:ℚ) ^ ((d:ℤ) - 1) ≤ x := by
    rw [hx]
    calc (b:ℚ) ^ ((d:ℤ) - 1) = (b:ℚ) ^ (k - 1) * (b:ℚ) ^ ((d:ℤ) - k) := by
          rw [← zpow_add₀ (ne_of_gt hb0)]
          congr 1
          ring
      _ ≤ q * (b:ℚ) ^ ((d:ℤ) - k) := mul_le_mul_of_nonneg_right hg1 (le_of_lt htk)
  have hx2 : x < (b:ℚ) ^ (d:ℤ) := by
    rw [hx]
    calc q * (b:ℚ) ^ ((d:ℤ) - k) < (b:ℚ) ^ k * (b:ℚ) ^ ((d:ℤ) - k) :=
          mul_lt_mul_of_pos_right hg2 htk
      _ = (b:ℚ) ^ (d:ℤ) := by
          rw [← zpow_add₀ (ne_of_gt hb0)]
          congr 1
          ring
  set F : ℤ := ⌊x + 1/2⌋ with hF
  have hF1 : ((b ^ (d - 1) : ℕ) : ℤ) ≤ F := by
    rw [hF, Int.le_floor]
    have : ((b ^ (d - 1) : ℕ) : ℚ) = (b:ℚ) ^ ((d:ℤ) - 1) := cast_pow_sub_one b d hd
    push_cast
    push_cast at this
    linarith
  have hF2 : F ≤ ((b ^ d : ℕ) : ℤ) := by
    have h1 : F < ((b ^ d : ℕ) : ℤ) + 1 := by
      rw [hF, Int.floor_lt]
      have : ((b ^ d : ℕ) : ℚ) = (b:ℚ) ^ (d:ℤ) := cast_pow_int b d
      push_cast
      push_cast at this
      linarith
    omega
  have hFle : (F:ℚ) ≤ x + 1/2 := Int.floor_le _
  have hFgt : x + 1/2 < (F:ℚ) + 1 := Int.lt_floor_add_one _
  have hFerr : |(F:ℚ) - x| ≤ 1/2 := by
    rw [abs_le]
    constructor <;> linarith
  have hqx : x * (b:ℚ) ^ (k - (d:ℤ)) = q := by
    rw [hx, mul_assoc, ← zpow_add₀ (ne_of_gt hb0)]
    rw [show (d:ℤ) - k + (k - (d:ℤ)) = 0 from by ring]
    simp
  have htk2 : (0:ℚ) < (b:ℚ) ^ (k - (d:ℤ)) := zpow_pos hb0 _
  have hFpos : (0:ℤ) ≤ F := by
    have : (0:ℤ) ≤ ((b ^ (d - 1) : ℕ) : ℤ) := by positivity
    omega
  have hcast_bd : ((b ^ d : ℕ) : ℤ) = (b:ℤ) ^ d := by push_cast; ring
  have herr_gen : ∀ (DD : ℕ) (pp : ℤ), (DD:ℚ) * (b:ℚ) ^ (pp - (d:ℤ)) = (F:ℚ) * (b:ℚ) ^ (k - (d:ℤ)) →
      |(DD:ℚ) * (b:ℚ) ^ (pp - (d:ℤ)) - q| ≤ (b:ℚ) ^ (qlog b q + 1 - (d:ℤ)) / 2 := by
    intro DD pp hval
    have hdiff : (DD:ℚ) * (b:ℚ) ^ (pp - (d:ℤ)) - q = ((F:ℚ) - x) * (b:ℚ) ^ (k - (d:ℤ)) := by
      rw [hval, ← hqx]
      ring
    rw [hdiff, abs_mul, abs_of_pos htk2]
    rw [show qlog b q + 1 - (d:ℤ) = k - (d:ℤ) from by rw [hk]]
    calc |(F:ℚ) - x| * (b:ℚ) ^ (k - (d:ℤ)) ≤ 1/2 * (b:ℚ) ^ (k - (d:ℤ)) :=
          mul_le_mul_of_nonneg_right hFerr (le_of_lt htk2)
      _ = (b:ℚ) ^ (k - (d:ℤ)) / 2 := by ring
  have hpow_lt : b ^ (d - 1) < b ^ d := pow_lt_pow_right₀ (by omega) (by omega)
  by_cases hif : F = (b:ℤ) ^ d
  · rw [if_pos hif] at hD
    injection hD with hD1 hD2
    subst hD1
    subst hD2
    refine ⟨le_rfl, hpow_lt, ?_⟩
    apply herr_gen
    have hFq : (F:ℚ) = (b:ℚ) ^ (d:ℤ) := by
      rw [hif]
      push_cast
      rw [← zpow_natCast]
    rw [hFq, cast_pow_sub_one b d hd]
    rw [← zpow_add₀ (ne_of_gt hb0), ← zpow_add₀ (ne_of_gt hb0)]
    congr 1
    rw [hk]
    ring
  · rw [if_neg hif] at hD
    injection hD with hD1 hD2
    subst hD1
    subst hD2
    have hne : F ≠ ((b ^ d : ℕ) : ℤ) := by
      rw [hcast_bd]
      exact hif
    refine ⟨by omega, by omega, ?_⟩
    apply herr_gen
    rw [show ((F.toNat : ℕ) : ℚ) = (F:ℚ) from by exact_mod_cast Int.toNat_of_nonneg hFpos]

/-- With prec+3 significant digits in any base b ≥ 2, formatting a finite
value and parsing it back at the value's own precision is the identity. -/
theorem fmt_roundtrip_at (v : Mpf) (b : ℕ) (hb : 2 ≤ b) (hw : v.Wf) (hf : v.cls = .finite) :
    parseLit (fmtLit v b (v.prec + 3)) b v.prec = v := by
  obtain ⟨hp, hinv⟩ := hw
  obtain ⟨hm1, hm2⟩ := hinv hf
  rcases v with ⟨n, c, mm, ee, pp⟩
  simp only at hf hm1 hm2 hp
  subst hf
  have hb0 : (0:ℚ) < (b:ℚ) := by
    have : (2:ℚ) ≤ (b:ℚ) := by exact_mod_cast hb
    linarith
  have hm0 : (1:ℕ) ≤ mm := le_trans Nat.one_le_two_pow hm1
  have hmq : (0:ℚ) < (mm:ℚ) := by exact_mod_cast hm0
  have ht : (0:ℚ) < (2:ℚ) ^ ee := two_zpow_pos _
  set d : ℕ := pp + 3 with hd
  set q : ℚ := (mm:ℚ) * (2:ℚ) ^ ee with hqdef
  have hq0 : 0 < q := mul_pos hmq ht
  obtain ⟨hs1, hs2, herr⟩ := digitsAt_spec q b d hb hq0 (by omega)
    (digitsAt q b d).1 (digitsAt q b d).2 rfl
  obtain ⟨g1, g2⟩ := qlog_spec b q hb hq0
  have hstep1 : (b:ℚ) ^ (qlog b q + 1 - (d:ℤ)) ≤ q * (b:ℚ) ^ (1 - (d:ℤ)) := by
    have hsplit : (b:ℚ) ^ (qlog b q + 1 - (d:ℤ))
        = (b:ℚ) ^ (qlog b q) * (b:ℚ) ^ (1 - (d:ℤ)) := by
      rw [← zpow_add₀ (ne_of_gt hb0)]
      congr 1
      ring
    rw [hsplit]
    exact mul_le_mul_of_nonneg_right g1 (le_of_lt (zpow_pos hb0 _))
  have hstep2 : (b:ℚ) ^ (1 - (d:ℤ)) ≤ (2:ℚ) ^ (1 - (d:ℤ)) := by
    have e1 : (b:ℚ) ^ (1 - (d:ℤ)) = ((b:ℚ) ^ (d - 1 : ℕ))⁻¹ := by
      rw [← zpow_natCast (b:ℚ) (d - 1), ← zpow_neg]
      congr 1
    have e2 : (2:ℚ) ^ (1 - (d:ℤ)) = ((2:ℚ) ^ (d - 1 : ℕ))⁻¹ := by
      rw [← zpow_natCast (2:ℚ) (d - 1), ← zpow_neg]
      congr 1
    rw [e1, e2]
    have hpw : (2:ℚ) ^ (d - 1 : ℕ) ≤ (b:ℚ) ^ (d - 1 : ℕ) :=
      pow_le_pow_left₀ (by norm_num) (by exact_mod_cast hb) _
    have h2pos : (0:ℚ) < (2:ℚ) ^ (d - 1 : ℕ) := pow_pos (by norm_num) _
    have hbpos : (0:ℚ) < (b:ℚ) ^ (d - 1 : ℕ) := pow_pos hb0 _
    rw [inv_le_inv₀ hbpos h2pos]
    exact hpw
  have hstep3 : q < (2:ℚ) ^ (ee + (pp:ℤ)) := by
    have hcast : (mm:ℚ) < (2:ℚ) ^ (pp:ℤ) := by
      rw [← two_zpow_natCast' pp]
      exact_mod_cast hm2
    calc q = (mm:ℚ) * (2:ℚ) ^ ee := hqdef
      _ < (2:ℚ) ^ (pp:ℤ) * (2:ℚ) ^ ee := mul_lt_mul_of_pos_right hcast ht
      _ = (2:ℚ) ^ (ee + (pp:ℤ)) := by
          rw [← zpow_add₀ (by norm_num : (2:ℚ) ≠ 0)]
          congr 1
          ring
  have hq1d : (0:ℚ) < (2:ℚ) ^ (1 - (d:ℤ)) := two_zpow_pos _
  have hchain : (b:ℚ) ^ (qlog b q + 1 - (d:ℤ)) < (2:ℚ) ^ (ee - 2) := by
    have h1 : q * (b:ℚ) ^ (1 - (d:ℤ)) ≤ q * (2:ℚ) ^ (1 - (d:ℤ)) :=
      mul_le_mul_of_nonneg_left hstep2 (le_of_lt hq0)
    have h2 : q * (2:ℚ) ^ (1 - (d:ℤ)) < (2:ℚ) ^ (ee + (pp:ℤ)) * (2:ℚ) ^ (1 - (d:ℤ)) :=
      mul_lt_mul_of_pos_right hstep3 hq1d
    have h3 : (2:ℚ) ^ (ee + (pp:ℤ)) * (2:ℚ) ^ (1 - (d:ℤ)) = (2:ℚ) ^ (ee - 2) := by
      rw [← zpow_add₀ (by norm_num : (2:ℚ) ≠ 0)]
      congr 1
      omega
    linarith
  have hquarter : (b:ℚ) ^ (qlog b q + 1 - (d:ℤ)) / 2 < (2:ℚ) ^ ee / 4 := by
    have h4 : (2:ℚ) ^ (ee - 2 : ℤ) = (2:ℚ) ^ ee / 4 := by
      rw [zpow_sub₀ (by norm_num : (2:ℚ) ≠ 0)]
      norm_num
    have hbp : (0:ℚ) < (b:ℚ) ^ (qlog b q + 1 - (d:ℤ)) := zpow_pos hb0 _
    rw [← h4]
    linarith
  have herr2 : |((digitsAt q b d).1 : ℚ) * (b:ℚ) ^ ((digitsAt q b d).2 - (d:ℤ)) - q|
      < (2:ℚ) ^ ee / 4 := lt_of_le_of_lt herr hquarter
  have hD1 : (1:ℕ) ≤ (digitsAt q b d).1 := le_trans (Nat.one_le_pow _ _ (by omega)) hs1
  have hrnd : rndME pp (((digitsAt q b d).1 : ℚ) * (b:ℚ) ^ ((digitsAt q b d).2 - (d:ℤ)))
      = (mm, ee) := by
    apply rndME_exact pp mm ee _ hp hm1 hm2
    rw [hqdef] at herr2
    exact herr2
  show parseLit (fmtLit ⟨n, .finite, mm, ee, pp⟩ b d) b pp = ⟨n, .finite, mm, ee, pp⟩
  have hfmt : fmtLit ⟨n, .finite, mm, ee, pp⟩ b d
      = ⟨.finite, n, (digitsAt q b d).1, d, (digitsAt q b d).2⟩ := rfl
  rw [hfmt]
  rw [parseLit_finite n (digitsAt q b d).1 d (digitsAt q b d).2 b pp (by omega)]
  rw [hrnd]

theorem mEq_self (v : Mpf) (h : v.cls ≠ .nan) : mEq v v = true := by
  rcases v with ⟨n, c, mm, ee, pp⟩
  cases c with
  | zero => simp [mEq]
  | finite => simp [mEq]
  | inf => simp [mEq]
  | nan => exact absurd rfl h

/-- Parse-of-format round trip for every well-formed Value (spec section 8,
first testable property): the class is preserved, and any non-NaN value
parses back mathematically equal to itself (NaN never compares equal under
the IEEE-style equality, so the property degenerates to class preservation
there). -/
theorem formatMin_roundtrip (v : Mpf) (b : ℕ) (hb : 2 ≤ b) (hw : v.Wf) :
    (parseLit (formatMin v b).1 b v.prec).cls = v.cls ∧
      (v.cls ≠ .nan → mEq (parseLit (formatMin v b).1 b v.prec) v = true) := by
  rcases v with ⟨n, c, mm, ee, pp⟩
  cases c with
  | zero =>
    have hparse : parseLit (formatMin ⟨n, .zero, mm, ee, pp⟩ b).1 b pp
        = ⟨n, .zero, 0, 0, pp⟩ := rfl
    constructor
    · rfl
    · intro _
      rw [hparse]
      simp [mEq, Mpf.val]
  | finite =>
    have hOK : fmtOK ⟨n, .finite, mm, ee, pp⟩ b (pp + 3) = true := by
      unfold fmtOK
      rw [fmt_roundtrip_at ⟨n, .finite, mm, ee, pp⟩ b hb hw rfl]
      exact beq_self_eq_true _
    have hfound : fmtOK ⟨n, .finite, mm, ee, pp⟩ b
        (searchD (fmtOK ⟨n, .finite, mm, ee, pp⟩ b) 1 (pp + 2)) = true := by
      apply searchD_found
      rw [show 1 + (pp + 2) = pp + 3 from by omega]
      exact hOK
    have heq : parseLit (fmtLit ⟨n, .finite, mm, ee, pp⟩ b
        (searchD (fmtOK ⟨n, .finite, mm, ee, pp⟩ b) 1 (pp + 2))) b pp
        = ⟨n, .finite, mm, ee, pp⟩ := by
      unfold fmtOK at hfound
      exact eq_of_beq hfound
    have hform : (formatMin ⟨n, .finite, mm, ee, pp⟩ b).1
        = fmtLit ⟨n, .finite, mm, ee, pp⟩ b
            (searchD (fmtOK ⟨n, .finite, mm, ee, pp⟩ b) 1 (pp + 2)) := rfl
    constructor
    · rw [hform, heq]
    · intro _
      rw [hform, heq]
      exact mEq_self _ (by intro hcontra; exact MpfClass.noConfusion hcontra)
  | inf =>
    have hparse : parseLit (formatMin ⟨n, .inf, mm, ee, pp⟩ b).1 b pp
        = ⟨n, .inf, 0, 0, pp⟩ := rfl
    constructor
    · rfl
    · intro _
      rw [hparse]
      simp [mEq]
  | nan =>
    constructor
    · rfl
    · intro h
      exact absurd rfl h

/-! ### Rounding to a new precision (spec sections 3 and 4.1) -/

theorem rndHalfEven_of_mid (s : ℚ) (n : ℕ) (h : s = (n:ℚ) + 1/2) :
    rndHalfEven s = if n % 2 = 0 then n else n + 1 := by
  have hmid : s - (n:ℚ) = 1/2 := by rw [h]; ring
  unfold rndHalfEven
  rw [rndHalfEven_floor s n (by rw [h]; linarith) (by rw [h]; linarith)]
  rw [hmid]
  norm_num

/-- Carry helper for mantissa-level round-up: folds an overflowing mantissa
back into the exponent. -/
def fRoundUp (neg : Bool) (m0 : ℕ) (e0 : ℤ) (p : ℕ) : Mpf :=
  if m0 + 1 = 2 ^ p then ⟨neg, .finite, 2 ^ (p - 1), e0 + 1, p⟩
  else ⟨neg, .finite, m0 + 1, e0, p⟩

/-- Modelled from the spec: round(value, new_precision) implemented at the
limb/mantissa representation level: when the precision grows the mantissa is
zero-extended; when it shrinks, the dropped low bits steer a nearest
rounding with ties broken to even, with carry renormalization. -/
def fRound (v : Mpf) (p : ℕ) : Mpf :=
  match v.cls with
  | .finite =>
    if v.prec ≤ p then
      ⟨v.neg, .finite, v.mant * 2 ^ (p - v.prec), v.exp - ((p:ℤ) - (v.prec:ℤ)), p⟩
    else
      if v.mant % 2 ^ (v.prec - p) < 2 ^ (v.prec - p - 1) then
        ⟨v.neg, .finite, v.mant / 2 ^ (v.prec - p), v.exp + ((v.prec:ℤ) - (p:ℤ)), p⟩
      else if 2 ^ (v.prec - p - 1) < v.mant % 2 ^ (v.prec - p) then
        fRoundUp v.neg (v.mant / 2 ^ (v.prec - p)) (v.exp + ((v.prec:ℤ) - (p:ℤ))) p
      else if (v.mant / 2 ^ (v.prec - p)) % 2 = 0 then
        ⟨v.neg, .finite, v.mant / 2 ^ (v.prec - p), v.exp + ((v.prec:ℤ) - (p:ℤ)), p⟩
      else fRoundUp v.neg (v.mant / 2 ^ (v.prec - p)) (v.exp + ((v.prec:ℤ) - (p:ℤ))) p
  | _ => ⟨v.neg, v.cls, v.mant, v.exp, p⟩

theorem ofRat_signed (p : ℕ) (nn : Bool) (mm : ℕ) (ee : ℤ) (hm0 : 1 ≤ mm) :
    ofRat p (Mpf.val ⟨nn, .finite, mm, ee, pp⟩)
      = ⟨nn, .finite, (rndME p ((mm:ℚ) * (2:ℚ) ^ ee)).1,
          (rndME p ((mm:ℚ) * (2:ℚ) ^ ee)).2, p⟩ := by
  have hmq : (0:ℚ) < (mm:ℚ) := by exact_mod_cast hm0
  have ht : (0:ℚ) < (2:ℚ) ^ ee := two_zpow_pos _
  have hprod : (0:ℚ) < (mm:ℚ) * (2:ℚ) ^ ee := mul_pos hmq ht
  cases nn with
  | false =>
    have hval : Mpf.val ⟨false, .finite, mm, ee, pp⟩ = (mm:ℚ) * (2:ℚ) ^ ee := by
      rw [val_finite _ rfl]
      norm_num
    rw [hval]
    unfold ofRat
    rw [if_neg (ne_of_gt hprod), abs_of_pos hprod]
    have hdec : decide ((mm:ℚ) * (2:ℚ) ^ ee < 0) = false :=
      decide_eq_false (not_lt.mpr (le_of_lt hprod))
    rw [hdec]
  | true =>
    have hval : Mpf.val ⟨true, .finite, mm, ee, pp⟩ = -((mm:ℚ) * (2:ℚ) ^ ee) := by
      rw [val_finite _ rfl]
      norm_num
    rw [hval]
    have hneg : -((mm:ℚ) * (2:ℚ) ^ ee) < 0 := neg_neg_iff_pos.mpr hprod
    unfold ofRat
    rw [if_neg (ne_of_lt hneg), abs_neg, abs_of_pos hprod]
    have hdec : decide (-((mm:ℚ) * (2:ℚ) ^ ee) < 0) = true := decide_eq_true hneg
    rw [hdec]

/-- Rounding at the representation level agrees exactly with rounding the
exact mathematical value directly at the target precision under the Nearest
(ties-to-even) mode. -/
theorem fRound_correct (v : Mpf) (p : ℕ) (hw : v.Wf) (hf : v.cls = .finite) (hp : 1 ≤ p) :
    fRound v p = ofRat p v.val := by
  obtain ⟨hp0, hinv⟩ := hw
  obtain ⟨hm1, hm2⟩ := hinv hf
  rcases v with ⟨n, c, mm, ee, pp⟩
  simp only at hf hm1 hm2 hp0
  subst hf
  have hm0 : (1:ℕ) ≤ mm := le_trans Nat.one_le_two_pow hm1
  have hmq : (0:ℚ) < (mm:ℚ) := by exact_mod_cast hm0
  have ht : (0:ℚ) < (2:ℚ) ^ ee := two_zpow_pos _
  have hq0 : (0:ℚ) < (mm:ℚ) * (2:ℚ) ^ ee := mul_pos hmq ht
  rw [ofRat_signed p n mm ee hm0]
  have hbr1 : (2:ℚ) ^ (ee + (pp:ℤ) - 1) ≤ (mm:ℚ) * (2:ℚ) ^ ee := by
    have hsp : (2:ℚ) ^ (ee + (pp:ℤ) - 1) = (2:ℚ) ^ ((pp:ℤ) - 1) * (2:ℚ) ^ ee := by
      rw [← zpow_add₀ (by norm_num : (2:ℚ) ≠ 0)]
      congr 1
      ring
    rw [hsp]
    apply mul_le_mul_of_nonneg_right _ (le_of_lt ht)
    rw [← two_zpow_natCast pp hp0]
    exact_mod_cast hm1
  have hbr2 : (mm:ℚ) * (2:ℚ) ^ ee < (2:ℚ) ^ (ee + (pp:ℤ) - 1 + 1) := by
    have hsp : (2:ℚ) ^ (ee + (pp:ℤ) - 1 + 1) = (2:ℚ) ^ (pp:ℤ) * (2:ℚ) ^ ee := by
      rw [← zpow_add₀ (by norm_num : (2:ℚ) ≠ 0)]
      congr 1
      ring
    rw [hsp]
    apply mul_lt_mul_of_pos_right _ ht
    rw [← two_zpow_natCast' pp]
    exact_mod_cast hm2
  have hqlog : qlog 2 ((mm:ℚ) * (2:ℚ) ^ ee) = ee + (pp:ℤ) - 1 :=
    qlog2_eq_of_bracket _ _ hq0 hbr1 hbr2
  have heE : rndE p ((mm:ℚ) * (2:ℚ) ^ ee) = ee + (pp:ℤ) - (p:ℤ) := by
    unfold rndE
    rw [hqlog]
    ring
  by_cases hpp : pp ≤ p
  · -- precision grows: mantissa is zero-extended, value unchanged and exact
    set M : ℕ := mm * 2 ^ (p - pp) with hM
    have hMq : (M:ℚ) = (mm:ℚ) * (2:ℚ) ^ ((p:ℤ) - (pp:ℤ)) := by
      rw [hM]
      push_cast
      rw [← zpow_natCast (2:ℚ) (p - pp)]
      congr 1
      · congr 1
        omega
    have hs : (mm:ℚ) * (2:ℚ) ^ ee / (2:ℚ) ^ (ee + (pp:ℤ) - (p:ℤ)) = (M:ℚ) := by
      rw [div_eq_iff (ne_of_gt (two_zpow_pos _))]
      rw [hMq, mul_assoc, ← zpow_add₀ (by norm_num : (2:ℚ) ≠ 0)]
      congr 1
      ring
    have hMlt : M < 2 ^ p := by
      rw [hM]
      calc mm * 2 ^ (p - pp) < 2 ^ pp * 2 ^ (p - pp) :=
            (Nat.mul_lt_mul_right (Nat.two_pow_pos _)).mpr hm2
        _ = 2 ^ p := by rw [← pow_add]; congr 1; omega
    have hrnd : rndME p ((mm:ℚ) * (2:ℚ) ^ ee) = (M, ee + (pp:ℤ) - (p:ℤ)) := by
      unfold rndME
      rw [heE, hs]
      rw [rndHalfEven_of_lo (M:ℚ) M le_rfl (by norm_num)]
      rw [if_neg (by omega : ¬ M = 2 ^ p)]
    rw [hrnd]
    unfold fRound
    rw [if_pos hpp, ← hM]
    rw [show ee - ((p:ℤ) - (pp:ℤ)) = ee + (pp:ℤ) - (p:ℤ) from by ring]
  · -- precision shrinks: nearest-even on the dropped low bits
    push_neg at hpp
    set drop : ℕ := pp - p with hdrop
    have hdrop1 : 1 ≤ drop := by omega
    set Q : ℕ := mm / 2 ^ drop with hQ
    set R : ℕ := mm % 2 ^ drop with hR
    set H : ℕ := 2 ^ (drop - 1) with hH
    have hQR : Q * 2 ^ drop + R = mm := by
      rw [hQ, hR, Nat.mul_comm]
      exact Nat.div_add_mod mm (2 ^ drop)
    have hRlt : R < 2 ^ drop := Nat.mod_lt _ (Nat.two_pow_pos _)
    have h2H : 2 ^ drop = 2 * H := by
      rw [hH]
      conv_lhs => rw [show drop = (drop - 1) + 1 from by omega]
      rw [pow_succ]
      ring
    have hQlt : Q < 2 ^ p := by
      rw [hQ, Nat.div_lt_iff_lt_mul (Nat.two_pow_pos _)]
      calc mm < 2 ^ pp := hm2
        _ = 2 ^ p * 2 ^ drop := by rw [← pow_add]; congr 1; omega
    have hD0 : (0:ℚ) < ((2 ^ drop : ℕ) : ℚ) := by
      have := Nat.two_pow_pos drop
      exact_mod_cast this
    have hs : (mm:ℚ) * (2:ℚ) ^ ee / (2:ℚ) ^ (ee + (pp:ℤ) - (p:ℤ))
        = (Q:ℚ) + (R:ℚ) / ((2 ^ drop : ℕ) : ℚ) := by
      rw [div_eq_iff (ne_of_gt (two_zpow_pos _))]
      have hsplit : (2:ℚ) ^ (ee + (pp:ℤ) - (p:ℤ)) = ((2 ^ drop : ℕ) : ℚ) * (2:ℚ) ^ ee := by
        rw [cast_pow_int 2]
        push_cast
        rw [← zpow_add₀ (by norm_num : (2:ℚ) ≠ 0)]
        congr 1
        omega
      rw [hsplit]
      have hmm : (mm:ℚ) = (Q:ℚ) * ((2 ^ drop : ℕ) : ℚ) + (R:ℚ) := by
        exact_mod_cast congrArg (fun x : ℕ => (x : ℚ)) hQR.symm
      rw [hmm]
      field_simp
      ring
    have hfold_up : rndME p ((mm:ℚ) * (2:ℚ) ^ ee) = (if Q + 1 = 2 ^ p then (2 ^ (p - 1), ee + (pp:ℤ) - (p:ℤ) + 1) else (Q + 1, ee + (pp:ℤ) - (p:ℤ))) →
        True := fun _ => trivial
    clear hfold_up
    have hup_eq : fRoundUp n Q (ee + ((pp:ℤ) - (p:ℤ))) p
        = ⟨n, .finite, (if Q + 1 = 2 ^ p then 2 ^ (p - 1) else Q + 1),
            (if Q + 1 = 2 ^ p then ee + ((pp:ℤ) - (p:ℤ)) + 1 else ee + ((pp:ℤ) - (p:ℤ))), p⟩ := by
      unfold fRoundUp
      by_cases hc : Q + 1 = 2 ^ p
      · rw [if_pos hc, if_pos hc, if_pos hc]
      · rw [if_neg hc, if_neg hc, if_neg hc]
    rcases Nat.lt_trichotomy R H with hcmp | hcmp | hcmp
    · -- dropped bits strictly below half: round down
      have hfr : (R:ℚ) / ((2 ^ drop : ℕ) : ℚ) < 1 / 2 := by
        rw [div_lt_iff₀ hD0]
        have : (2:ℚ) * (R:ℚ) < ((2 ^ drop : ℕ) : ℚ) := by
          have hnat : 2 * R < 2 ^ drop := by omega
          exact_mod_cast hnat
        linarith
      have hfr0 : (0:ℚ) ≤ (R:ℚ) / ((2 ^ drop : ℕ) : ℚ) := by positivity
      have hrnd : rndME p ((mm:ℚ) * (2:ℚ) ^ ee) = (Q, ee + (pp:ℤ) - (p:ℤ)) := by
        unfold rndME
        rw [heE, hs]
        rw [rndHalfEven_of_lo _ Q (by linarith) (by linarith)]
        rw [if_neg (by omega : ¬ Q = 2 ^ p)]
      rw [hrnd]
      unfold fRound
      rw [if_neg (by omega : ¬ pp ≤ p)]
      rw [if_pos (show mm % 2 ^ (pp - p) < 2 ^ (pp - p - 1) from by
        rw [← hdrop] at *
        omega)]
      rw [show mm / 2 ^ (pp - p) = Q from by rw [hQ, hdrop]]
      rw [show ee + ((pp:ℤ) - (p:ℤ)) = ee + (pp:ℤ) - (p:ℤ) from by ring]
    · -- exactly half: ties to even
      have hmid : (Q:ℚ) + (R:ℚ) / ((2 ^ drop : ℕ) : ℚ) = (Q:ℚ) + 1/2 := by
        congr 1
        rw [div_eq_iff (ne_of_gt hD0)]
        have hnat : 2 * R = 2 ^ drop := by omega
        have : ((2 * R : ℕ) : ℚ) = ((2 ^ drop : ℕ) : ℚ) := by rw [hnat]
        push_cast at this
        push_cast
        linarith
      have hrnd0 : rndHalfEven ((mm:ℚ) * (2:ℚ) ^ ee / (2:ℚ) ^ (ee + (pp:ℤ) - (p:ℤ)))
          = if Q % 2 = 0 then Q else Q + 1 := by
        rw [hs, hmid]
        exact rndHalfEven_of_mid _ Q rfl
      by_cases hpar : Q % 2 = 0
      · have hrnd : rndME p ((mm:ℚ) * (2:ℚ) ^ ee) = (Q, ee + (pp:ℤ) - (p:ℤ)) := by
          unfold rndME
          rw [heE, hrnd0, if_pos hpar]
          rw [if_neg (by omega : ¬ Q = 2 ^ p)]
        rw [hrnd]
        unfold fRound
        rw [if_neg (by omega : ¬ pp ≤ p)]
        rw [if_neg (show ¬ mm % 2 ^ (pp - p) < 2 ^ (pp - p - 1) from by
          rw [← hdrop] at *
          omega)]
        rw [if_neg (show ¬ 2 ^ (pp - p - 1) < mm % 2 ^ (pp - p) from by
          rw [← hdrop] at *
          omega)]
        rw [if_pos (show (mm / 2 ^ (pp - p)) % 2 = 0 from by
          rw [← hdrop] at *
          rw [← hQ]
          exact hpar)]
        rw [show mm / 2 ^ (pp - p) = Q from by rw [hQ, hdrop]]
        rw [show ee + ((pp:ℤ) - (p:ℤ)) = ee + (pp:ℤ) - (p:ℤ) from by ring]
      · have hrnd : rndME p ((mm:ℚ) * (2:ℚ) ^ ee)
            = (if Q + 1 = 2 ^ p then (2 ^ (p - 1), ee + (pp:ℤ) - (p:ℤ) + 1)
               else (Q + 1, ee + (pp:ℤ) - (p:ℤ))) := by
          unfold rndME
          rw [heE, hrnd0, if_neg hpar]
        rw [hrnd]
        unfold fRound
        rw [if_neg (by omega : ¬ pp ≤ p)]
        rw [if_neg (show ¬ mm % 2 ^ (pp - p) < 2 ^ (pp - p - 1) from by
          rw [← hdrop] at *
          omega)]
        rw [if_neg (show ¬ 2 ^ (pp - p - 1) < mm % 2 ^ (pp - p) from by
          rw [← hdrop] at *
          omega)]
        rw [if_neg (show ¬ (mm / 2 ^ (pp - p)) % 2 = 0 from by
          rw [← hdrop] at *
          rw [← hQ]
          exact hpar)]
        rw [show mm / 2 ^ (pp - p) = Q from by rw [hQ, hdrop]]
        rw [hup_eq]
        by_cases hc : Q + 1 = 2 ^ p
        · rw [if_pos hc, if_pos hc, if_pos hc]
          rw [show ee + ((pp:ℤ) - (p:ℤ)) = ee + (pp:ℤ) - (p:ℤ) from by ring]
        · rw [if_neg hc, if_neg hc, if_neg hc]
          rw [show ee + ((pp:ℤ) - (p:ℤ)) = ee + (pp:ℤ) - (p:ℤ) from by ring]
    · -- dropped bits strictly above half: round up
      have hfr : 1 / 2 < (R:ℚ) / ((2 ^ drop : ℕ) : ℚ) := by
        rw [lt_div_iff₀ hD0]
        have : ((2 ^ drop : ℕ) : ℚ) < 2 * (R:ℚ) := by
          have hnat : 2 ^ drop < 2 * R := by omega
          exact_mod_cast hnat
        linarith
      have hfr1 : (R:ℚ) / ((2 ^ drop : ℕ) : ℚ) < 1 := by
        rw [div_lt_one hD0]
        exact_mod_cast hRlt
      have hrnd : rndME p ((mm:ℚ) * (2:ℚ) ^ ee)
          = (if Q + 1 = 2 ^ p then (2 ^ (p - 1), ee + (pp:ℤ) - (p:ℤ) + 1)
             else (Q + 1, ee + (pp:ℤ) - (p:ℤ))) := by
        unfold rndME
        rw [heE, hs]
        rw [rndHalfEven_of_hi _ Q (by linarith) (by linarith)]
      rw [hrnd]
      unfold fRound
      rw [if_neg (by omega : ¬ pp ≤ p)]
      rw [if_neg (show ¬ mm % 2 ^ (pp - p) < 2 ^ (pp - p - 1) from by
        rw [← hdrop] at *
        omega)]
      rw [if_pos (show 2 ^ (pp - p - 1) < mm % 2 ^ (pp - p) from by
        rw [← hdrop] at *
        omega)]
      rw [show mm / 2 ^ (pp - p) = Q from by rw [hQ, hdrop]]
      rw [hup_eq]
      by_cases hc : Q + 1 = 2 ^ p
      · rw [if_pos hc, if_pos hc, if_pos hc]
        rw [show ee + ((pp:ℤ) - (p:ℤ)) = ee + (pp:ℤ) - (p:ℤ) from by ring]
      · rw [if_neg hc, if_neg hc, if_neg hc]
        rw [show ee + ((pp:ℤ) - (p:ℤ)) = ee + (pp:ℤ) - (p:ℤ) from by ring]

/-! ### Binary Codec (spec 4.4)

Modelled from the spec: a fixed small header (flag byte encoding
sign/special-class, a 4-byte little-endian precision field, a 4-byte
two's-complement exponent field counting radix-256 places) followed by the
raw mantissa bytes most-significant first, trailing zero bytes stripped
(canonical form).  The flag byte is 4/5 for ±zero, 8/9 for ±finite,
16/17 for ±infinity and 32 for NaN. -/

/-- 4-byte little-endian encoding of n (n < 2^32). -/
def le4 (n : ℕ) : List ℕ := [n % 256, n / 256 % 256, n / 65536 % 256, n / 16777216 % 256]

/-- Value of a 4-byte little-endian field. -/
def rd4 (a b c e : ℕ) : ℕ := a + 256 * b + 65536 * c + 16777216 * e

/-- Big-endian base-256 digits of n, exactly k bytes. -/
def beBytes : ℕ → ℕ → List ℕ
  | 0, _ => []
  | k+1, n => beBytes k (n / 256) ++ [n % 256]

/-- Value of a big-endian byte string. -/
def beVal : List ℕ → ℕ
  | [] => 0
  | b :: bs => b * 256 ^ bs.length + beVal bs

/-- Strip factors of 256 from n (fueled): returns (n / 256^z, z) with z the
number of trailing zero bytes removed. -/
def strip256 : ℕ → ℕ → ℕ × ℕ
  | 0, n => (n, 0)
  | f+1, n =>
    if n % 256 = 0 ∧ n ≠ 0 then ((strip256 f (n / 256)).1, (strip256 f (n / 256)).2 + 1)
    else (n, 0)

/-- Radix-256 exponent field a finite value is encoded with: the number of
base-256 digits before the radix point. -/
def encX (v : Mpf) : ℤ := Int.ediv ((nbits v.mant : ℤ) - 1 + v.exp) 8 + 1

/-- Sub-byte shift aligning the mantissa to a whole number of bytes. -/
def encU (v : Mpf) : ℕ := (Int.emod ((nbits v.mant : ℤ) - 1 + v.exp) 8).toNat

/-- Number of mantissa bytes before canonical stripping. -/
def encK (v : Mpf) : ℕ := (nbits v.mant + 14 - encU v) / 8

/-- The mantissa scaled to a whole number of big-endian bytes. -/
def encM (v : Mpf) : ℕ := v.mant * 2 ^ (8 * encK v - (nbits v.mant + 7 - encU v))

/-- Modelled from the spec: encode(value) -> bytes, canonical. -/
def encode (v : Mpf) : List ℕ :=
  match v.cls with
  | .zero => [if v.neg then 5 else 4]
  | .inf => [if v.neg then 17 else 16]
  | .nan => [32]
  | .finite =>
    (if v.neg then 9 else 8) ::
      (le4 (v.prec % 4294967296) ++
        le4 ((Int.emod (encX v) 4294967296).toNat) ++
        beBytes (encK v - (strip256 (encK v) (encM v)).2) (strip256 (encK v) (encM v)).1)

/-- Signed reading of the 4-byte two's-complement exponent field. -/
def decodeX (n : ℕ) : ℤ := if n < 2147483648 then (n:ℤ) else (n:ℤ) - 4294967296

/-- Exact rational denoted by an exponent field and a mantissa byte string. -/
def decodeQ (x : ℕ) (bytes : List ℕ) : ℚ :=
  (beVal bytes : ℚ) * (256:ℚ) ^ (decodeX x - (bytes.length : ℤ))

/-- Modelled from the spec: decode(bytes, default_precision) -> value;
reconstructs the exact rational the bytes denote and normalizes it at the
stored precision; malformed input yields none (a CorruptEncoding failure). -/
def decode (bs : List ℕ) (d : ℕ) : Option Mpf :=
  match bs with
  | [4] => some ⟨false, .zero, 0, 0, d⟩
  | [5] => some ⟨true, .zero, 0, 0, d⟩
  | [16] => some ⟨false, .inf, 0, 0, d⟩
  | [17] => some ⟨true, .inf, 0, 0, d⟩
  | [32] => some ⟨false, .nan, 0, 0, d⟩
  | f :: p0 :: p1 :: p2 :: p3 :: x0 :: x1 :: x2 :: x3 :: rest =>
    if (f = 8 ∨ f = 9) ∧ rest ≠ [] ∧ beVal rest ≠ 0 ∧ 1 ≤ rd4 p0 p1 p2 p3 then
      some ⟨decide (f = 9), .finite,
        (rndME (rd4 p0 p1 p2 p3) (decodeQ (rd4 x0 x1 x2 x3) rest)).1,
        (rndME (rd4 p0 p1 p2 p3) (decodeQ (rd4 x0 x1 x2 x3) rest)).2,
        rd4 p0 p1 p2 p3⟩
    else none
  | _ => none

theorem rd4_le4 (n : ℕ) :
    rd4 (le4 n)[0]! (le4 n)[1]! (le4 n)[2]! (le4 n)[3]! = n % 4294967296 := by
  simp [le4, rd4]
  omega

theorem beBytes_length (k : ℕ) : ∀ n, (beBytes k n).length = k := by
  induction k with
  | zero => intro n; rfl
  | succ k ih => intro n; simp [beBytes, ih]

theorem beVal_snoc (b : ℕ) : ∀ (xs : List ℕ), beVal (xs ++ [b]) = 256 * beVal xs + b := by
  intro xs
  induction xs with
  | nil => simp [beVal]
  | cons x xs ih =>
    show beVal (x :: (xs ++ [b])) = 256 * beVal (x :: xs) + b
    rw [beVal, ih, beVal, List.length_append]
    simp only [List.length_cons, List.length_nil, Nat.zero_add, pow_succ, pow_zero]
    ring

theorem beVal_beBytes (k : ℕ) : ∀ n, n < 256 ^ k → beVal (beBytes k n) = n := by
  induction k with
  | zero => intro n h; interval_cases n; rfl
  | succ k ih =>
    intro n h
    rw [beBytes, beVal_snoc, ih (n / 256) (by
      have := Nat.div_lt_div_of_lt_of_dvd (show (256:ℕ) ∣ 256 ^ (k+1) from
        dvd_pow_self 256 (Nat.succ_ne_zero k)) h
      simpa [Nat.pow_succ, Nat.mul_div_cancel_left] using this)]
    omega

theorem strip256_spec (f : ℕ) : ∀ n, n ≠ 0 →
    (strip256 f n).1 ≠ 0 ∧ (strip256 f n).1 * 256 ^ (strip256 f n).2 = n := by
  induction f with
  | zero => intro n h; exact ⟨h, by simp [strip256]⟩
  | succ f ih =>
    intro n h
    by_cases hc : n % 256 = 0 ∧ n ≠ 0
    · have hd : n / 256 ≠ 0 := by omega
      obtain ⟨ih1, ih2⟩ := ih (n / 256) hd
      rw [strip256, if_pos hc]
      refine ⟨ih1, ?_⟩
      simp only
      rw [pow_succ, ← Nat.mul_assoc, ih2]
      omega
    · rw [strip256, if_neg hc]
      exact ⟨h, by simp⟩

theorem decodeX_emod (X : ℤ) (h1 : -2147483648 ≤ X) (h2 : X < 2147483648) :
    decodeX ((Int.emod X 4294967296).toNat) = X := by
  have hm : Int.emod X 4294967296 = X % 4294967296 := rfl
  unfold decodeX
  rw [hm]
  split <;> omega

theorem decode_header (fl a b d : ℕ) (bytes : List ℕ)
    (hfl : fl = 8 ∨ fl = 9) (hne : bytes ≠ []) (hbv : beVal bytes ≠ 0)
    (ha1 : 1 ≤ a) (ha2 : a < 4294967296) :
    decode (fl :: (le4 a ++ le4 b ++ bytes)) d =
      some ⟨decide (fl = 9), .finite,
        (rndME a (decodeQ (b % 4294967296) bytes)).1,
        (rndME a (decodeQ (b % 4294967296) bytes)).2, a⟩ := by
  have hr : rd4 (a % 256) (a / 256 % 256) (a / 65536 % 256) (a / 16777216 % 256) = a := by
    unfold rd4; omega
  have hrb : rd4 (b % 256) (b / 256 % 256) (b / 65536 % 256) (b / 16777216 % 256)
      = b % 4294967296 := by
    unfold rd4; omega
  simp only [le4, List.cons_append, List.nil_append]
  simp only [decode, hr, hrb]
  rw [if_pos ⟨hfl, hne, hbv, by omega⟩]

theorem decode_encode (nn : Bool) (mm : ℕ) (ee : ℤ) (pp : ℕ) (d : ℕ)
    (hw : (⟨nn, .finite, mm, ee, pp⟩ : Mpf).Wf)
    (hp32 : pp < 4294967296)
    (hX1 : -2147483648 ≤ encX ⟨nn, .finite, mm, ee, pp⟩)
    (hX2 : encX ⟨nn, .finite, mm, ee, pp⟩ < 2147483648) :
    decode (encode ⟨nn, .finite, mm, ee, pp⟩) d = some ⟨nn, .finite, mm, ee, pp⟩ := by
  obtain ⟨hp1, hm⟩ := hw
  obtain ⟨hm1, hm2⟩ := hm rfl
  replace hp1 : 1 ≤ pp := hp1
  replace hm1 : 2 ^ (pp - 1) ≤ mm := hm1
  replace hm2 : mm < 2 ^ pp := hm2
  have hm0 : mm ≠ 0 := by
    have := Nat.one_le_two_pow (n := pp - 1)
    omega
  have hnb : nbits mm = pp := nbits_unique mm pp hp1 hm1 hm2
  -- the encoder's fields
  have hXdef : encX ⟨nn, .finite, mm, ee, pp⟩ = Int.ediv ((pp:ℤ) - 1 + ee) 8 + 1 := by
    unfold encX
    simp only [hnb]
  have hudef : encU ⟨nn, .finite, mm, ee, pp⟩ = (Int.emod ((pp:ℤ) - 1 + ee) 8).toNat := by
    unfold encU
    simp only [hnb]
  have hkdef : encK ⟨nn, .finite, mm, ee, pp⟩
      = (pp + 14 - encU ⟨nn, .finite, mm, ee, pp⟩) / 8 := by
    unfold encK
    simp only [hnb]
  have hMdef : encM ⟨nn, .finite, mm, ee, pp⟩
      = mm * 2 ^ (8 * encK ⟨nn, .finite, mm, ee, pp⟩
          - (pp + 7 - encU ⟨nn, .finite, mm, ee, pp⟩)) := by
    unfold encM
    simp only [hnb]
  have hemod : Int.emod ((pp:ℤ) - 1 + ee) 8 = ((pp:ℤ) - 1 + ee) % 8 := rfl
  have hediv : Int.ediv ((pp:ℤ) - 1 + ee) 8 = ((pp:ℤ) - 1 + ee) / 8 := rfl
  have hu7 : encU ⟨nn, .finite, mm, ee, pp⟩ ≤ 7 := by
    rw [hudef, hemod]; omega
  -- abbreviations
  have hkt1 : pp + (8 * encK ⟨nn, .finite, mm, ee, pp⟩
      - (pp + 7 - encU ⟨nn, .finite, mm, ee, pp⟩)) ≤ 8 * encK ⟨nn, .finite, mm, ee, pp⟩ := by
    rw [hkdef]; omega
  have hkt2 : 8 * encK ⟨nn, .finite, mm, ee, pp⟩ ≤ pp + (8 * encK ⟨nn, .finite, mm, ee, pp⟩
      - (pp + 7 - encU ⟨nn, .finite, mm, ee, pp⟩)) + 7 := by
    rw [hkdef]; omega
  have hMup : encM ⟨nn, .finite, mm, ee, pp⟩ < 256 ^ encK ⟨nn, .finite, mm, ee, pp⟩ := by
    rw [hMdef]
    calc mm * 2 ^ (8 * encK ⟨nn, .finite, mm, ee, pp⟩
          - (pp + 7 - encU ⟨nn, .finite, mm, ee, pp⟩))
        < 2 ^ pp * 2 ^ (8 * encK ⟨nn, .finite, mm, ee, pp⟩
          - (pp + 7 - encU ⟨nn, .finite, mm, ee, pp⟩)) := by
          exact (Nat.mul_lt_mul_right (Nat.two_pow_pos _)).mpr hm2
      _ = 2 ^ (pp + (8 * encK ⟨nn, .finite, mm, ee, pp⟩
          - (pp + 7 - encU ⟨nn, .finite, mm, ee, pp⟩))) := by rw [← pow_add]
      _ ≤ 2 ^ (8 * encK ⟨nn, .finite, mm, ee, pp⟩) := Nat.pow_le_pow_right (by norm_num) hkt1
      _ = 256 ^ encK ⟨nn, .finite, mm, ee, pp⟩ := by
          rw [show (256:ℕ) = 2 ^ 8 from rfl, ← pow_mul]
  have hMlo : 256 ^ (encK ⟨nn, .finite, mm, ee, pp⟩ - 1) ≤ encM ⟨nn, .finite, mm, ee, pp⟩ := by
    rw [hMdef]
    calc (256:ℕ) ^ (encK ⟨nn, .finite, mm, ee, pp⟩ - 1)
        = 2 ^ (8 * (encK ⟨nn, .finite, mm, ee, pp⟩ - 1)) := by
          rw [show (256:ℕ) = 2 ^ 8 from rfl, ← pow_mul]
      _ ≤ 2 ^ ((pp - 1) + (8 * encK ⟨nn, .finite, mm, ee, pp⟩
          - (pp + 7 - encU ⟨nn, .finite, mm, ee, pp⟩))) :=
          Nat.pow_le_pow_right (by norm_num) (by omega)
      _ = 2 ^ (pp - 1) * 2 ^ (8 * encK ⟨nn, .finite, mm, ee, pp⟩
          - (pp + 7 - encU ⟨nn, .finite, mm, ee, pp⟩)) := by rw [← pow_add]
      _ ≤ mm * 2 ^ (8 * encK ⟨nn, .finite, mm, ee, pp⟩
          - (pp + 7 - encU ⟨nn, .finite, mm, ee, pp⟩)) :=
          Nat.mul_le_mul_right _ hm1
  have hM0 : encM ⟨nn, .finite, mm, ee, pp⟩ ≠ 0 := by
    rw [hMdef]
    positivity
  -- strip the trailing zero bytes
  obtain ⟨hs0, hsmul⟩ := strip256_spec (encK ⟨nn, .finite, mm, ee, pp⟩)
    (encM ⟨nn, .finite, mm, ee, pp⟩) hM0
  have hzlt : (strip256 (encK ⟨nn, .finite, mm, ee, pp⟩) (encM ⟨nn, .finite, mm, ee, pp⟩)).2
      < encK ⟨nn, .finite, mm, ee, pp⟩ := by
    by_contra hcon
    push_neg at hcon
    have h1 : 256 ^ encK ⟨nn, .finite, mm, ee, pp⟩
        ≤ 256 ^ (strip256 (encK ⟨nn, .finite, mm, ee, pp⟩)
            (encM ⟨nn, .finite, mm, ee, pp⟩)).2 :=
      Nat.pow_le_pow_right (by norm_num) hcon
    have h2 : 256 ^ (strip256 (encK ⟨nn, .finite, mm, ee, pp⟩)
        (encM ⟨nn, .finite, mm, ee, pp⟩)).2 ≤ encM ⟨nn, .finite, mm, ee, pp⟩ := by
      calc 256 ^ (strip256 (encK ⟨nn, .finite, mm, ee, pp⟩)
            (encM ⟨nn, .finite, mm, ee, pp⟩)).2
          ≤ (strip256 (encK ⟨nn, .finite, mm, ee, pp⟩)
              (encM ⟨nn, .finite, mm, ee, pp⟩)).1 * 256 ^ (strip256
              (encK ⟨nn, .finite, mm, ee, pp⟩) (encM ⟨nn, .finite, mm, ee, pp⟩)).2 :=
            Nat.le_mul_of_pos_left _ (Nat.pos_of_ne_zero hs0)
        _ = encM ⟨nn, .finite, mm, ee, pp⟩ := hsmul
    omega
  have hstrip_lt : (strip256 (encK ⟨nn, .finite, mm, ee, pp⟩)
      (encM ⟨nn, .finite, mm, ee, pp⟩)).1
      < 256 ^ (encK ⟨nn, .finite, mm, ee, pp⟩
          - (strip256 (encK ⟨nn, .finite, mm, ee, pp⟩) (encM ⟨nn, .finite, mm, ee, pp⟩)).2) := by
    have h1 : (strip256 (encK ⟨nn, .finite, mm, ee, pp⟩) (encM ⟨nn, .finite, mm, ee, pp⟩)).1
        * 256 ^ (strip256 (encK ⟨nn, .finite, mm, ee, pp⟩)
            (encM ⟨nn, .finite, mm, ee, pp⟩)).2
        < 256 ^ (encK ⟨nn, .finite, mm, ee, pp⟩
            - (strip256 (encK ⟨nn, .finite, mm, ee, pp⟩) (encM ⟨nn, .finite, mm, ee, pp⟩)).2)
          * 256 ^ (strip256 (encK ⟨nn, .finite, mm, ee, pp⟩)
              (encM ⟨nn, .finite, mm, ee, pp⟩)).2 := by
      rw [hsmul, ← pow_add]
      rw [Nat.sub_add_cancel (le_of_lt hzlt)]
      exact hMup
    exact Nat.lt_of_mul_lt_mul_right h1
  -- the byte string
  have hlen : (beBytes (encK ⟨nn, .finite, mm, ee, pp⟩
      - (strip256 (encK ⟨nn, .finite, mm, ee, pp⟩) (encM ⟨nn, .finite, mm, ee, pp⟩)).2)
      (strip256 (encK ⟨nn, .finite, mm, ee, pp⟩) (encM ⟨nn, .finite, mm, ee, pp⟩)).1).length
      = encK ⟨nn, .finite, mm, ee, pp⟩
        - (strip256 (encK ⟨nn, .finite, mm, ee, pp⟩) (encM ⟨nn, .finite, mm, ee, pp⟩)).2 :=
    beBytes_length _ _
  have hbv : beVal (beBytes (encK ⟨nn, .finite, mm, ee, pp⟩
      - (strip256 (encK ⟨nn, .finite, mm, ee, pp⟩) (encM ⟨nn, .finite, mm, ee, pp⟩)).2)
      (strip256 (encK ⟨nn, .finite, mm, ee, pp⟩) (encM ⟨nn, .finite, mm, ee, pp⟩)).1)
      = (strip256 (encK ⟨nn, .finite, mm, ee, pp⟩) (encM ⟨nn, .finite, mm, ee, pp⟩)).1 :=
    beVal_beBytes _ _ hstrip_lt
  have hne : beBytes (encK ⟨nn, .finite, mm, ee, pp⟩
      - (strip256 (encK ⟨nn, .finite, mm, ee, pp⟩) (encM ⟨nn, .finite, mm, ee, pp⟩)).2)
      (strip256 (encK ⟨nn, .finite, mm, ee, pp⟩) (encM ⟨nn, .finite, mm, ee, pp⟩)).1 ≠ [] := by
    intro hcon
    have := hlen
    rw [hcon] at this
    simp at this
    omega
  -- unfold encode and apply the header lemma
  have hencode : encode ⟨nn, .finite, mm, ee, pp⟩
      = (if nn then 9 else 8) ::
          (le4 (pp % 4294967296) ++
            le4 ((Int.emod (encX ⟨nn, .finite, mm, ee, pp⟩) 4294967296).toNat) ++
            beBytes (encK ⟨nn, .finite, mm, ee, pp⟩
              - (strip256 (encK ⟨nn, .finite, mm, ee, pp⟩)
                  (encM ⟨nn, .finite, mm, ee, pp⟩)).2)
              (strip256 (encK ⟨nn, .finite, mm, ee, pp⟩)
                (encM ⟨nn, .finite, mm, ee, pp⟩)).1) := by
    unfold encode
    cases nn <;> rfl
  rw [hencode, show pp % 4294967296 = pp from by omega]
  rw [decode_header (if nn then 9 else 8) pp
    ((Int.emod (encX ⟨nn, .finite, mm, ee, pp⟩) 4294967296).toNat) d _
    (by cases nn <;> simp) hne (by rw [hbv]; exact hs0) hp1 hp32]
  -- identify the decoded rational with the original value
  have hxfield : (Int.emod (encX ⟨nn, .finite, mm, ee, pp⟩) 4294967296).toNat % 4294967296
      = (Int.emod (encX ⟨nn, .finite, mm, ee, pp⟩) 4294967296).toNat := by
    have h1 : 0 ≤ Int.emod (encX ⟨nn, .finite, mm, ee, pp⟩) 4294967296 := by
      rw [show Int.emod (encX ⟨nn, .finite, mm, ee, pp⟩) 4294967296
        = encX ⟨nn, .finite, mm, ee, pp⟩ % 4294967296 from rfl]
      omega
    have h2 : Int.emod (encX ⟨nn, .finite, mm, ee, pp⟩) 4294967296 < 4294967296 := by
      rw [show Int.emod (encX ⟨nn, .finite, mm, ee, pp⟩) 4294967296
        = encX ⟨nn, .finite, mm, ee, pp⟩ % 4294967296 from rfl]
      omega
    omega
  have hq : decodeQ ((Int.emod (encX ⟨nn, .finite, mm, ee, pp⟩) 4294967296).toNat)
      (beBytes (encK ⟨nn, .finite, mm, ee, pp⟩
        - (strip256 (encK ⟨nn, .finite, mm, ee, pp⟩) (encM ⟨nn, .finite, mm, ee, pp⟩)).2)
        (strip256 (encK ⟨nn, .finite, mm, ee, pp⟩) (encM ⟨nn, .finite, mm, ee, pp⟩)).1)
      = (mm : ℚ) * (2:ℚ) ^ ee := by
    unfold decodeQ
    rw [hbv, hlen, decodeX_emod _ hX1 hX2]
    -- cast the stripping equation to ℚ
    have h0 : (strip256 (encK ⟨nn, .finite, mm, ee, pp⟩) (encM ⟨nn, .finite, mm, ee, pp⟩)).1
        * 256 ^ (strip256 (encK ⟨nn, .finite, mm, ee, pp⟩)
            (encM ⟨nn, .finite, mm, ee, pp⟩)).2
        = mm * 2 ^ (8 * encK ⟨nn, .finite, mm, ee, pp⟩
            - (pp + 7 - encU ⟨nn, .finite, mm, ee, pp⟩)) := by
      rw [hsmul, hMdef]
    have hcast : ((strip256 (encK ⟨nn, .finite, mm, ee, pp⟩)
        (encM ⟨nn, .finite, mm, ee, pp⟩)).1 : ℚ)
        * (256:ℚ) ^ ((strip256 (encK ⟨nn, .finite, mm, ee, pp⟩)
            (encM ⟨nn, .finite, mm, ee, pp⟩)).2 : ℕ)
        = (mm : ℚ) * (2:ℚ) ^ (((8 * encK ⟨nn, .finite, mm, ee, pp⟩
            - (pp + 7 - encU ⟨nn, .finite, mm, ee, pp⟩)) : ℕ) : ℤ) := by
      rw [zpow_natCast]
      exact_mod_cast h0
    have h256 : (256:ℚ) = (2:ℚ) ^ (8:ℤ) := by norm_num
    have hzk : ((encK ⟨nn, .finite, mm, ee, pp⟩
        - (strip256 (encK ⟨nn, .finite, mm, ee, pp⟩) (encM ⟨nn, .finite, mm, ee, pp⟩)).2 : ℕ) : ℤ)
        = (encK ⟨nn, .finite, mm, ee, pp⟩ : ℤ)
          - ((strip256 (encK ⟨nn, .finite, mm, ee, pp⟩)
              (encM ⟨nn, .finite, mm, ee, pp⟩)).2 : ℤ) := by
      omega
    -- express everything in powers of two with integer exponents
    have hstrip_q : ((strip256 (encK ⟨nn, .finite, mm, ee, pp⟩)
        (encM ⟨nn, .finite, mm, ee, pp⟩)).1 : ℚ)
        = (mm : ℚ) * (2:ℚ) ^ (((8 * encK ⟨nn, .finite, mm, ee, pp⟩
            - (pp + 7 - encU ⟨nn, .finite, mm, ee, pp⟩)) : ℕ) : ℤ)
          * (2:ℚ) ^ (-(8 * ((strip256 (encK ⟨nn, .finite, mm, ee, pp⟩)
              (encM ⟨nn, .finite, mm, ee, pp⟩)).2 : ℤ))) := by
      have hpow : ((256:ℚ)) ^ ((strip256 (encK ⟨nn, .finite, mm, ee, pp⟩)
          (encM ⟨nn, .finite, mm, ee, pp⟩)).2 : ℕ)
          = (2:ℚ) ^ (8 * ((strip256 (encK ⟨nn, .finite, mm, ee, pp⟩)
              (encM ⟨nn, .finite, mm, ee, pp⟩)).2 : ℤ)) := by
        rw [h256, ← zpow_natCast ((2:ℚ) ^ (8:ℤ)), ← zpow_mul]
      have h2 := hcast
      rw [hpow] at h2
      have hnz : (2:ℚ) ^ (8 * ((strip256 (encK ⟨nn, .finite, mm, ee, pp⟩)
          (encM ⟨nn, .finite, mm, ee, pp⟩)).2 : ℤ)) ≠ 0 := ne_of_gt (two_zpow_pos _)
      apply mul_right_cancel₀ hnz
      rw [h2, mul_assoc, ← zpow_add₀ (by norm_num : (2:ℚ) ≠ 0),
        show -(8 * ((strip256 (encK ⟨nn, .finite, mm, ee, pp⟩)
            (encM ⟨nn, .finite, mm, ee, pp⟩)).2 : ℤ))
          + 8 * ((strip256 (encK ⟨nn, .finite, mm, ee, pp⟩)
            (encM ⟨nn, .finite, mm, ee, pp⟩)).2 : ℤ) = 0 from by ring,
        zpow_zero, mul_one]
    rw [hstrip_q]
    rw [h256, ← zpow_mul]
    rw [mul_assoc, mul_assoc, ← zpow_add₀ (by norm_num : (2:ℚ) ≠ 0),
      ← zpow_add₀ (by norm_num : (2:ℚ) ≠ 0)]
    congr 1
    have harith : (((8 * encK ⟨nn, .finite, mm, ee, pp⟩
        - (pp + 7 - encU ⟨nn, .finite, mm, ee, pp⟩)) : ℕ) : ℤ)
        + (-(8 * ((strip256 (encK ⟨nn, .finite, mm, ee, pp⟩)
            (encM ⟨nn, .finite, mm, ee, pp⟩)).2 : ℤ))
          + 8 * (encX ⟨nn, .finite, mm, ee, pp⟩
            - ((encK ⟨nn, .finite, mm, ee, pp⟩
              - (strip256 (encK ⟨nn, .finite, mm, ee, pp⟩)
                  (encM ⟨nn, .finite, mm, ee, pp⟩)).2 : ℕ) : ℤ))) = ee := by
      rw [hzk, hXdef, hediv, hkdef, hudef, hemod]
      omega
    rw [harith]
  rw [hxfield, hq]
  rw [rndME_exact pp mm ee ((mm : ℚ) * (2:ℚ) ^ ee) hp1 hm1 hm2 (by
    simp only [sub_self, abs_zero]
    positivity)]
  cases nn <;> rfl

/-! ### Rational-Approximation Engine f2q (spec 4.5) -/

/-- Modelled from the spec: the continued-fraction convergents of n/d as
(numerator, denominator) pairs, built by Euclid's algorithm with the
standard two-term recurrence h_i = a_i h_(i-1) + h_(i-2); fueled by the
strictly decreasing denominator. -/
def cfConvs : ℕ → ℕ → ℕ → ℕ × ℕ → ℕ × ℕ → List (ℕ × ℕ)
  | 0, _, _, _, _ => []
  | f+1, n, d, pr, pr2 =>
    if d = 0 then []
    else
      ((n / d) * pr.1 + pr2.1, (n / d) * pr.2 + pr2.2) ::
        cfConvs f d (n % d) ((n / d) * pr.1 + pr2.1, (n / d) * pr.2 + pr2.2) pr

/-- Continued-fraction convergents of a nonnegative rational. -/
def convergents (x : ℚ) : List (ℕ × ℕ) :=
  cfConvs (x.den + 1) x.num.natAbs x.den (1, 0) (0, 1)

/-- Does the convergent c approximate x within relative error bound? -/
def relOK (x bound : ℚ) (c : ℕ × ℕ) : Bool :=
  decide (|(c.1 : ℚ) / (c.2 : ℚ) - x| ≤ bound * x)

/-- The element of smallest denominator (first among ties). -/
def minByDen : List (ℕ × ℕ) → Option (ℕ × ℕ)
  | [] => none
  | c :: cs =>
    match minByDen cs with
    | none => some c
    | some b => if c.2 ≤ b.2 then some c else some b

/-- Result of f2q: a plain integer when the denominator is 1, else a
rational. -/
inductive F2QRes
  | intRes (z : ℤ)
  | ratRes (num : ℤ) (den : ℕ)
deriving DecidableEq

/-- Modelled from the spec: to_simplest_rational(value, bound) — among the
continued-fraction convergents of the value's exact rational, return the one
of smallest denominator within the relative error bound, as a plain integer
when that denominator is 1; NaN, Infinity and a nonpositive bound are a
DomainError (none). -/
def f2q (v : Mpf) (bound : ℚ) : Option F2QRes :=
  match v.cls with
  | .nan => none
  | .inf => none
  | .zero => some (.intRes 0)
  | .finite =>
    if bound ≤ 0 then none
    else
      match minByDen ((convergents ((v.mant : ℚ) * (2:ℚ) ^ v.exp)).filter
          (relOK ((v.mant : ℚ) * (2:ℚ) ^ v.exp) bound)) with
      | none => none
      | some c =>
        if c.2 = 1 then some (.intRes (if v.neg then -(c.1 : ℤ) else (c.1 : ℤ)))
        else some (.ratRes (if v.neg then -(c.1 : ℤ) else (c.1 : ℤ)) c.2)

/-- Modelled from the spec: f2q with the bound omitted uses 2^-(precision-1). -/
def f2qDefault (v : Mpf) : Option F2QRes := f2q v ((2:ℚ) ^ (1 - (v.prec : ℤ)))

theorem cfConvs_den_pos : ∀ (f n d : ℕ) (pr pr2 : ℕ × ℕ),
    (pr.2 = 0 ∧ pr2.2 = 1) ∨ (1 ≤ pr.2 ∧ pr2.2 ≤ pr.2 ∧ d ≤ n) →
    ∀ c ∈ cfConvs f n d pr pr2, 1 ≤ c.2 := by
  intro f
  induction f with
  | zero => intro n d pr pr2 _ c hc; simp [cfConvs] at hc
  | succ f ih =>
    intro n d pr pr2 hinv c hc
    by_cases hd : d = 0
    · rw [cfConvs, if_pos hd] at hc
      simp at hc
    · rw [cfConvs, if_neg hd] at hc
      have hhead : 1 ≤ (n / d) * pr.2 + pr2.2 := by
        rcases hinv with ⟨h1, h2⟩ | ⟨h1, h2, h3⟩
        · omega
        · have ha : 1 ≤ n / d := (Nat.one_le_div_iff (Nat.pos_of_ne_zero hd)).mpr h3
          have := Nat.mul_le_mul ha h1
          omega
      rcases List.mem_cons.mp hc with hc1 | hc2
      · rw [hc1]
        exact hhead
      · refine ih d (n % d) _ pr (Or.inr ⟨hhead, ?_, le_of_lt (Nat.mod_lt n
          (Nat.pos_of_ne_zero hd))⟩) c hc2
        rcases hinv with ⟨h1, _⟩ | ⟨h1, _, h3⟩
        · simp only [h1, Nat.mul_zero, Nat.zero_add]
          omega
        · have ha : 1 ≤ n / d := (Nat.one_le_div_iff (Nat.pos_of_ne_zero hd)).mpr h3
          calc pr.2 = 1 * pr.2 := (Nat.one_mul _).symm
            _ ≤ (n / d) * pr.2 := Nat.mul_le_mul_right _ ha
            _ ≤ (n / d) * pr.2 + pr2.2 := Nat.le_add_right _ _

theorem cfConvs_exact : ∀ (f n d : ℕ) (pr pr2 : ℕ × ℕ), 0 < d → d ≤ f →
    ∃ c ∈ cfConvs f n d pr pr2,
      (c.1 : ℚ) * ((pr.2 : ℚ) * (n : ℚ) + (pr2.2 : ℚ) * (d : ℚ))
        = (c.2 : ℚ) * ((pr.1 : ℚ) * (n : ℚ) + (pr2.1 : ℚ) * (d : ℚ)) := by
  intro f
  induction f with
  | zero => intro n d pr pr2 hd hf; omega
  | succ f ih =>
    intro n d pr pr2 hd hf
    have hd0 : d ≠ 0 := by omega
    have hnd : n = d * (n / d) + n % d := (Nat.div_add_mod n d).symm
    by_cases hr : n % d = 0
    · refine ⟨((n / d) * pr.1 + pr2.1, (n / d) * pr.2 + pr2.2), ?_, ?_⟩
      · rw [cfConvs, if_neg hd0]
        exact List.mem_cons_self _ _
      · have hq : (n : ℚ) = (d : ℚ) * ((n / d : ℕ) : ℚ) := by
          exact_mod_cast hnd.trans (by omega)
        simp only
        rw [hq]
        push_cast
        ring
    · obtain ⟨c, hcmem, hcval⟩ := ih d (n % d)
        ((n / d) * pr.1 + pr2.1, (n / d) * pr.2 + pr2.2) pr
        (Nat.pos_of_ne_zero hr) (by
          have := Nat.mod_lt n (Nat.pos_of_ne_zero hd0)
          omega)
      refine ⟨c, ?_, ?_⟩
      · rw [cfConvs, if_neg hd0]
        exact List.mem_cons_of_mem _ hcmem
      · have hq : (n : ℚ) = (d : ℚ) * ((n / d : ℕ) : ℚ) + ((n % d : ℕ) : ℚ) := by
          exact_mod_cast hnd
        have h1 : (pr.1 : ℚ) * (n : ℚ) + (pr2.1 : ℚ) * (d : ℚ)
            = (((n / d) * pr.1 + pr2.1 : ℕ) : ℚ) * (d : ℚ)
              + (pr.1 : ℚ) * ((n % d : ℕ) : ℚ) := by
          rw [hq]
          push_cast
          ring
        have h2 : (pr.2 : ℚ) * (n : ℚ) + (pr2.2 : ℚ) * (d : ℚ)
            = (((n / d) * pr.2 + pr2.2 : ℕ) : ℚ) * (d : ℚ)
              + (pr.2 : ℚ) * ((n % d : ℕ) : ℚ) := by
          rw [hq]
          push_cast
          ring
        rw [h1, h2]
        simpa using hcval

theorem minByDen_mem : ∀ (l : List (ℕ × ℕ)) (c : ℕ × ℕ), minByDen l = some c → c ∈ l := by
  intro l
  induction l with
  | nil => intro c h; simp [minByDen] at h
  | cons a as ih =>
    intro c h
    rcases hm : minByDen as with _ | b
    · simp only [minByDen, hm, Option.some.injEq] at h
      simp [h]
    · simp only [minByDen, hm] at h
      by_cases hc : a.2 ≤ b.2
      · rw [if_pos hc] at h
        simp only [Option.some.injEq] at h
        simp [h]
      · rw [if_neg hc] at h
        simp only [Option.some.injEq] at h
        exact List.mem_cons_of_mem _ (h ▸ ih b hm)

theorem minByDen_none : ∀ (l : List (ℕ × ℕ)), minByDen l = none → l = [] := by
  intro l
  cases l with
  | nil => intro _; rfl
  | cons a as =>
    intro h
    exfalso
    rcases hm : minByDen as with _ | b
    · simp only [minByDen, hm] at h
      exact Option.noConfusion h
    · simp only [minByDen, hm] at h
      by_cases hc : a.2 ≤ b.2
      · rw [if_pos hc] at h
        exact Option.noConfusion h
      · rw [if_neg hc] at h
        exact Option.noConfusion h

theorem minByDen_min : ∀ (l : List (ℕ × ℕ)) (c : ℕ × ℕ), minByDen l = some c →
    ∀ b ∈ l, c.2 ≤ b.2 := by
  intro l
  induction l with
  | nil => intro c h; simp [minByDen] at h
  | cons a as ih =>
    intro c h b hb
    rcases hm : minByDen as with _ | m
    · simp only [minByDen, hm, Option.some.injEq] at h
      have has : as = [] := minByDen_none as hm
      subst has
      rcases List.mem_cons.mp hb with h1 | h2
      · rw [← h, h1]
      · simp at h2
    · simp only [minByDen, hm] at h
      by_cases hc : a.2 ≤ m.2
      · rw [if_pos hc] at h
        simp only [Option.some.injEq] at h
        rcases List.mem_cons.mp hb with h1 | h2
        · rw [← h, h1]
        · exact le_trans (h ▸ hc) (ih m hm b h2)
      · rw [if_neg hc] at h
        simp only [Option.some.injEq] at h
        rcases List.mem_cons.mp hb with h1 | h2
        · have := ih m hm
          rw [← h, h1]
          omega
        · exact h ▸ ih m hm b h2

theorem minByDen_some : ∀ (l : List (ℕ × ℕ)), l ≠ [] → ∃ c, minByDen l = some c := by
  intro l h
  cases l with
  | nil => exact absurd rfl h
  | cons a as =>
    rcases hm : minByDen as with _ | b
    · exact ⟨a, by simp only [minByDen, hm]⟩
    · by_cases hc : a.2 ≤ b.2
      · exact ⟨a, by simp only [minByDen, hm]; rw [if_pos hc]⟩
      · exact ⟨b, by simp only [minByDen, hm]; rw [if_neg hc]⟩

theorem convergents_exact_mem (x : ℚ) (hx : 0 < x) :
    ∃ c ∈ convergents x, 1 ≤ c.2 ∧ (c.1 : ℚ) / (c.2 : ℚ) = x := by
  obtain ⟨c, hmem, hval⟩ := cfConvs_exact (x.den + 1) x.num.natAbs x.den (1, 0) (0, 1)
    x.pos (Nat.le_succ _)
  refine ⟨c, hmem, ?_, ?_⟩
  · exact cfConvs_den_pos (x.den + 1) x.num.natAbs x.den (1, 0) (0, 1)
      (Or.inl ⟨rfl, rfl⟩) c hmem
  · have hd1 : 1 ≤ c.2 := cfConvs_den_pos (x.den + 1) x.num.natAbs x.den (1, 0) (0, 1)
      (Or.inl ⟨rfl, rfl⟩) c hmem
    have hnum : ((x.num.natAbs : ℕ) : ℚ) = (x.num : ℚ) := by
      rw [Int.cast_natAbs]
      exact_mod_cast abs_of_nonneg (Rat.num_nonneg.mpr hx.le)
    simp only [Prod.fst, Prod.snd] at hval
    norm_num at hval
    have hc2 : ((c.2 : ℕ) : ℚ) ≠ 0 := by
      have : (0:ℚ) < (c.2 : ℚ) := by exact_mod_cast hd1
      exact ne_of_gt this
    have hdq : ((x.den : ℕ) : ℚ) ≠ 0 := by
      have : (0:ℚ) < (x.den : ℚ) := by exact_mod_cast x.pos
      exact ne_of_gt this
    rw [div_eq_iff hc2]
    have hkey : (c.1 : ℚ) * (x.den : ℚ) = (x * (c.2 : ℚ)) * (x.den : ℚ) := by
      rw [hval, hnum, ← Rat.mul_den_eq_num]
      ring
    exact mul_right_cancel₀ hdq hkey

theorem f2q_min_convergent (v : Mpf) (bound : ℚ) (hw : v.Wf) (hf : v.cls = .finite)
    (hb : 0 < bound) :
    ∃ c : ℕ × ℕ,
      c ∈ convergents ((v.mant : ℚ) * (2:ℚ) ^ v.exp) ∧
      relOK ((v.mant : ℚ) * (2:ℚ) ^ v.exp) bound c = true ∧
      (∀ b ∈ convergents ((v.mant : ℚ) * (2:ℚ) ^ v.exp),
        relOK ((v.mant : ℚ) * (2:ℚ) ^ v.exp) bound b = true → c.2 ≤ b.2) ∧
      f2q v bound = some (if c.2 = 1
        then F2QRes.intRes (if v.neg then -(c.1 : ℤ) else (c.1 : ℤ))
        else F2QRes.ratRes (if v.neg then -(c.1 : ℤ) else (c.1 : ℤ)) c.2) := by
  rcases v with ⟨nn, cl, mm, ee, pp⟩
  cases (show cl = .finite from hf)
  obtain ⟨hp1, hm⟩ := hw
  obtain ⟨hm1, hm2⟩ := hm rfl
  replace hm1 : 2 ^ (pp - 1) ≤ mm := hm1
  have hx0 : (0:ℚ) < (mm : ℚ) * (2:ℚ) ^ ee := by
    have h1 : (0:ℚ) < (mm : ℚ) := by
      have := Nat.one_le_two_pow (n := pp - 1)
      have : 1 ≤ mm := by omega
      exact_mod_cast this
    exact mul_pos h1 (two_zpow_pos ee)
  obtain ⟨c0, hc0mem, hc0den, hc0val⟩ :=
    convergents_exact_mem ((mm : ℚ) * (2:ℚ) ^ ee) hx0
  have hc0ok : relOK ((mm : ℚ) * (2:ℚ) ^ ee) bound c0 = true := by
    unfold relOK
    apply decide_eq_true
    rw [hc0val, sub_self, abs_zero]
    exact mul_nonneg hb.le hx0.le
  have hfil : c0 ∈ (convergents ((mm : ℚ) * (2:ℚ) ^ ee)).filter
      (relOK ((mm : ℚ) * (2:ℚ) ^ ee) bound) :=
    List.mem_filter.mpr ⟨hc0mem, hc0ok⟩
  obtain ⟨c, hc⟩ := minByDen_some ((convergents ((mm : ℚ) * (2:ℚ) ^ ee)).filter
      (relOK ((mm : ℚ) * (2:ℚ) ^ ee) bound)) (by
    intro hcon
    rw [hcon] at hfil
    simp at hfil)
  have hcmem := List.mem_filter.mp (minByDen_mem _ c hc)
  refine ⟨c, hcmem.1, hcmem.2, ?_, ?_⟩
  · intro b hbmem hbok
    exact minByDen_min _ c hc b (List.mem_filter.mpr ⟨hbmem, hbok⟩)
  · simp only [f2q]
    rw [if_neg (not_le.mpr hb)]
    simp only [hc]
    split <;> rfl

/-! ### Special-Value & Rounding Engine: arithmetic (spec 4.1) -/

def nanAt (p : ℕ) : Mpf := ⟨false, .nan, 0, 0, p⟩

def infAt (neg : Bool) (p : ℕ) : Mpf := ⟨neg, .inf, 0, 0, p⟩

def zeroAt (neg : Bool) (p : ℕ) : Mpf := ⟨neg, .zero, 0, 0, p⟩

/-- Modelled from the spec: add — the exact sum rounded once at the larger
operand's precision; NaN propagates, like-signed infinities add to
infinity, opposite infinities give NaN. -/
def fAdd (u v : Mpf) : Mpf :=
  match u.cls, v.cls with
  | .nan, _ => nanAt (max u.prec v.prec)
  | _, .nan => nanAt (max u.prec v.prec)
  | .inf, .inf =>
    if u.neg = v.neg then infAt u.neg (max u.prec v.prec)
    else nanAt (max u.prec v.prec)
  | .inf, _ => infAt u.neg (max u.prec v.prec)
  | _, .inf => infAt v.neg (max u.prec v.prec)
  | .zero, .zero => zeroAt (u.neg && v.neg) (max u.prec v.prec)
  | _, _ => ofRat (max u.prec v.prec) (u.val + v.val)

/-- Negation flips the sign bit. -/
def fNeg (v : Mpf) : Mpf := ⟨!v.neg, v.cls, v.mant, v.exp, v.prec⟩

/-- Modelled from the spec: subtraction is addition of the negation. -/
def fSub (u v : Mpf) : Mpf := fAdd u (fNeg v)

/-- Modelled from the spec: multiply — exact product rounded once; NaN
propagates, Infinity * 0 = NaN, infinities multiply with XOR of signs. -/
def fMul (u v : Mpf) : Mpf :=
  match u.cls, v.cls with
  | .nan, _ => nanAt (max u.prec v.prec)
  | _, .nan => nanAt (max u.prec v.prec)
  | .inf, .zero => nanAt (max u.prec v.prec)
  | .zero, .inf => nanAt (max u.prec v.prec)
  | .inf, _ => infAt (xor u.neg v.neg) (max u.prec v.prec)
  | _, .inf => infAt (xor u.neg v.neg) (max u.prec v.prec)
  | .zero, _ => zeroAt (xor u.neg v.neg) (max u.prec v.prec)
  | _, .zero => zeroAt (xor u.neg v.neg) (max u.prec v.prec)
  | _, _ => ofRat (max u.prec v.prec) (u.val * v.val)

/-- Modelled from the spec: divide — exact quotient rounded once; NaN
propagates, 0/0 and Infinity/Infinity are NaN, finite/0 is Infinity with
sign the XOR of the operand signs. -/
def fDiv (u v : Mpf) : Mpf :=
  match u.cls, v.cls with
  | .nan, _ => nanAt (max u.prec v.prec)
  | _, .nan => nanAt (max u.prec v.prec)
  | .inf, .inf => nanAt (max u.prec v.prec)
  | .zero, .zero => nanAt (max u.prec v.prec)
  | .inf, _ => infAt (xor u.neg v.neg) (max u.prec v.prec)
  | _, .inf => zeroAt (xor u.neg v.neg) (max u.prec v.prec)
  | .zero, _ => zeroAt (xor u.neg v.neg) (max u.prec v.prec)
  | _, .zero => infAt (xor u.neg v.neg) (max u.prec v.prec)
  | _, _ => ofRat (max u.prec v.prec) (u.val / v.val)

/-- Fueled integer square root by binary digit descent. -/
def isqrtAux (n : ℕ) : ℕ → ℕ → ℕ
  | 0, acc => acc
  | f+1, acc =>
    if (acc + 2 ^ f) * (acc + 2 ^ f) ≤ n then isqrtAux n f (acc + 2 ^ f)
    else isqrtAux n f acc

def isqrt (n : ℕ) : ℕ := isqrtAux n (nbits n) 0

/-- Modelled from the spec: square root — sqrt(negative finite) = NaN,
sqrt(-0) = -0, sqrt(-Infinity) = NaN, NaN propagates; a positive finite
operand is approximated with 2 guard bits and rounded once. -/
def fSqrt (v : Mpf) : Mpf :=
  match v.cls with
  | .nan => nanAt v.prec
  | .inf => if v.neg then nanAt v.prec else v
  | .zero => v
  | .finite =>
    if v.neg then nanAt v.prec
    else
      ofRat v.prec
        ((isqrt (v.mant * 2 ^ (2 * (v.prec + 1) + (v.exp - 2 * Int.ediv v.exp 2).toNat)) : ℚ)
          * (2:ℚ) ^ (Int.ediv v.exp 2 - ((v.prec : ℤ) + 1)))

/-! ### Error kinds and the digits entry point (spec 4.3, 7) -/

inductive GmpyErr
  | invalidLiteral
  | unsupportedBase
  | rangeError
  | invalidConfiguration
  | corruptEncoding
  | domainError
deriving DecidableEq

/-- Modelled from the spec: digits — format(value, base, digit_count);
RangeError exactly when base is outside [2,62] or digit_count is negative,
with digit_count 0 meaning minimal round-trip digits. -/
def fDigits (v : Mpf) (b : ℕ) (d : ℤ) : Except GmpyErr (Literal × ℕ) :=
  if b < 2 ∨ 62 < b then .error .rangeError
  else if d < 0 then .error .rangeError
  else if d = 0 then .ok (formatMin v b)
  else .ok (formatAt v b d.toNat)

/-! ### Context (spec 4.2) -/

inductive RoundMode
  | nearest | toZero | up | down | awayFromZero
deriving DecidableEq

/-- Modelled from the spec: the fixed architectural minimum precision. -/
def minPrec : ℕ := 2

structure Context where
  precision : ℕ
  rmode : RoundMode
  emin : ℤ
  emax : ℤ
deriving DecidableEq

/-- Modelled from the spec: setting the context precision — a non-positive
or below-minimum request is an invalid-configuration error, the context is
left unchanged, and no default is substituted. -/
def applySetPrecision (c : Context) (p : ℤ) : Context × Option GmpyErr :=
  if p < (minPrec : ℤ) then (c, some .invalidConfiguration)
  else ({c with precision := p.toNat}, none)

/-! ### Allocation Cache (spec 4.6) -/

structure CacheCfg where
  maxEntries : ℕ
  maxLimbs : ℕ
deriving DecidableEq

/-- Limb count of a value's mantissa buffer (64-bit limbs). -/
def limbsOf (v : Mpf) : ℕ := (v.prec + 63) / 64

inductive FOp
  | addOp | subOp | mulOp | divOp
deriving DecidableEq

def applyOp : FOp → Mpf → Mpf → Mpf
  | .addOp, u, v => fAdd u v
  | .subOp, u, v => fSub u v
  | .mulOp, u, v => fMul u v
  | .divOp, u, v => fDiv u v

/-- Modelled from the spec: acquire(limb_count) — take a pooled buffer of
matching limb count when present; the Bool records whether a fresh
allocation was avoided. -/
def cacheAcquire (st : List ℕ) (n : ℕ) : List ℕ × Bool :=
  if n ∈ st then (st.erase n, true) else (st, false)

/-- Modelled from the spec: release(buffer) — pool the buffer when capacity
remains and the limb count is within the ceiling, else free it. -/
def cacheRelease (cfg : CacheCfg) (st : List ℕ) (n : ℕ) : List ℕ :=
  if st.length < cfg.maxEntries ∧ n ≤ cfg.maxLimbs then n :: st else st

/-- Run a sequence of operations threading the allocation cache through
acquire/release; returns the numeric results with the final pool and the
count of fresh allocations. -/
def runOps (cfg : CacheCfg) : List ℕ → List (FOp × Mpf × Mpf) → List Mpf × (List ℕ × ℕ)
  | st, [] => ([], (st, 0))
  | st, o :: os =>
    (applyOp o.1 o.2.1 o.2.2 ::
        (runOps cfg (cacheRelease cfg (cacheAcquire st (limbsOf (applyOp o.1 o.2.1 o.2.2))).1
          (limbsOf (applyOp o.1 o.2.1 o.2.2))) os).1,
      (runOps cfg (cacheRelease cfg (cacheAcquire st (limbsOf (applyOp o.1 o.2.1 o.2.2))).1
          (limbsOf (applyOp o.1 o.2.1 o.2.2))) os).2.1,
      (if (cacheAcquire st (limbsOf (applyOp o.1 o.2.1 o.2.2))).2 then 0 else 1) +
        (runOps cfg (cacheRelease cfg (cacheAcquire st (limbsOf (applyOp o.1 o.2.1 o.2.2))).1
          (limbsOf (applyOp o.1 o.2.1 o.2.2))) os).2.2)

/-! ### Hash (spec 6) -/

/-- The hash modulus 2^61 - 1. -/
def hashP : ℕ := 2305843009213693951

/-- Modelled from the spec: the host's integer hash — the magnitude reduced
modulo 2^61 - 1 with the sign reapplied. -/
def intHash (n : ℤ) : ℤ := n.sign * ((n.natAbs % hashP : ℕ) : ℤ)

/-- Modelled from the spec: hash of a Value, agreeing with the integer hash
on mathematically integral values; for ±m·2^e the factor 2^e is reduced
using 2^61 ≡ 1 (mod 2^61 - 1). -/
def mpfHash (v : Mpf) : ℤ :=
  match v.cls with
  | .zero => 0
  | .nan => 0
  | .inf => if v.neg then -314159 else 314159
  | .finite =>
    (if v.neg then -1 else 1) *
      (((v.mant % hashP) * 2 ^ (Int.emod v.exp 61).toNat % hashP : ℕ) : ℤ)

/-! ### Integer conversion and truncation (spec 4.1) -/

/-- Truncation of a rational toward zero. -/
def truncQ (q : ℚ) : ℤ := q.num.sign * ((q.num.natAbs / q.den : ℕ) : ℤ)

/-- Conversion of a Value to a host integer (truncating). -/
def fToZ (v : Mpf) : ℤ := truncQ v.val

/-- trunc: round toward zero to an integral Value. -/
def fTrunc (v : Mpf) : Mpf :=
  match v.cls with
  | .finite => ofRat v.prec ((truncQ v.val : ℤ) : ℚ)
  | _ => v

/-- floor: round toward minus infinity to an integral Value. -/
def fFloor (v : Mpf) : Mpf :=
  match v.cls with
  | .finite => ofRat v.prec ((⌊v.val⌋ : ℤ) : ℚ)
  | _ => v

/-- ceil: round toward plus infinity to an integral Value. -/
def fCeil (v : Mpf) : Mpf :=
  match v.cls with
  | .finite => ofRat v.prec ((⌈v.val⌉ : ℤ) : ℚ)
  | _ => v

theorem runOps_results : ∀ (ops : List (FOp × Mpf × Mpf)) (cfg cfg' : CacheCfg)
    (st st' : List ℕ), (runOps cfg st ops).1 = (runOps cfg' st' ops).1 := by
  intro ops
  induction ops with
  | nil => intro cfg cfg' st st'; rfl
  | cons o os ih =>
    intro cfg cfg' st st'
    simp only [runOps]
    exact congrArg (fun l => applyOp o.1 o.2.1 o.2.2 :: l) (ih _ _ _ _)

theorem truncQ_floor (q : ℚ) (h : 0 ≤ q) : truncQ q = ⌊q⌋ := by
  have hd : (0:ℚ) < (q.den : ℚ) := by exact_mod_cast q.pos
  have hnum : 0 ≤ q.num := Rat.num_nonneg.mpr h
  have hnaQ : ((q.num.natAbs : ℕ) : ℚ) = (q.num : ℚ) := by
    rw [Int.cast_natAbs]
    exact_mod_cast abs_of_nonneg hnum
  rcases eq_or_lt_of_le hnum with h0 | h0
  · have hq0 : q = 0 := by
      have h1 := Rat.num_div_den q
      rw [← h0] at h1
      simpa using h1.symm
    rw [hq0]
    unfold truncQ
    simp
  · have hsign : q.num.sign = 1 := Int.sign_eq_one_of_pos h0
    unfold truncQ
    rw [hsign, one_mul]
    symm
    rw [Int.floor_eq_iff]
    have hlt : q.num.natAbs < (q.num.natAbs / q.den + 1) * q.den := by
      calc q.num.natAbs
          = q.den * (q.num.natAbs / q.den) + q.num.natAbs % q.den := (Nat.div_add_mod _ _).symm
        _ < q.den * (q.num.natAbs / q.den) + q.den := by
            have := Nat.mod_lt q.num.natAbs q.pos
            omega
        _ = (q.num.natAbs / q.den + 1) * q.den := by ring
    constructor
    · have key : ((q.num.natAbs / q.den : ℕ) : ℚ) * (q.den:ℚ) ≤ q * (q.den:ℚ) := by
        rw [Rat.mul_den_eq_num]
        calc ((q.num.natAbs / q.den : ℕ) : ℚ) * (q.den:ℚ)
            = (((q.num.natAbs / q.den) * q.den : ℕ) : ℚ) := by push_cast; ring
          _ ≤ ((q.num.natAbs : ℕ) : ℚ) := by exact_mod_cast Nat.div_mul_le_self _ _
          _ = (q.num : ℚ) := hnaQ
      have h2 := le_of_mul_le_mul_right key hd
      exact_mod_cast h2
    · have key : q * (q.den:ℚ) < (((q.num.natAbs / q.den : ℕ) : ℚ) + 1) * (q.den:ℚ) := by
        rw [Rat.mul_den_eq_num]
        calc (q.num : ℚ) = ((q.num.natAbs : ℕ) : ℚ) := hnaQ.symm
          _ < (((q.num.natAbs / q.den + 1) * q.den : ℕ) : ℚ) := by exact_mod_cast hlt
          _ = (((q.num.natAbs / q.den : ℕ) : ℚ) + 1) * (q.den:ℚ) := by push_cast; ring
      have h2 := lt_of_mul_lt_mul_right key hd.le
      exact_mod_cast h2

theorem truncQ_ceil (q : ℚ) (h : q < 0) : truncQ q = ⌈q⌉ := by
  have hd : (0:ℚ) < (q.den : ℚ) := by exact_mod_cast q.pos
  have hnum : q.num < 0 := Rat.num_neg.mpr h
  have hnaQ : ((q.num.natAbs : ℕ) : ℚ) = -(q.num : ℚ) := by
    rw [Int.cast_natAbs]
    exact_mod_cast abs_of_nonpos hnum.le
  have hsign : q.num.sign = -1 := Int.sign_eq_neg_one_of_neg hnum
  unfold truncQ
  rw [hsign]
  rw [show (-1 : ℤ) * ((q.num.natAbs / q.den : ℕ) : ℤ)
    = -((q.num.natAbs / q.den : ℕ) : ℤ) from by ring]
  symm
  rw [Int.ceil_eq_iff]
  have hlt : q.num.natAbs < (q.num.natAbs / q.den + 1) * q.den := by
    calc q.num.natAbs
        = q.den * (q.num.natAbs / q.den) + q.num.natAbs % q.den := (Nat.div_add_mod _ _).symm
      _ < q.den * (q.num.natAbs / q.den) + q.den := by
          have := Nat.mod_lt q.num.natAbs q.pos
          omega
      _ = (q.num.natAbs / q.den + 1) * q.den := by ring
  constructor
  · have key : (-(((q.num.natAbs / q.den : ℕ) : ℚ) + 1)) * (q.den:ℚ) < q * (q.den:ℚ) := by
      rw [Rat.mul_den_eq_num]
      have h1 : ((q.num.natAbs : ℕ) : ℚ) < (((q.num.natAbs / q.den : ℕ) : ℚ) + 1) * (q.den:ℚ) := by
        calc ((q.num.natAbs : ℕ) : ℚ)
            < (((q.num.natAbs / q.den + 1) * q.den : ℕ) : ℚ) := by exact_mod_cast hlt
          _ = (((q.num.natAbs / q.den : ℕ) : ℚ) + 1) * (q.den:ℚ) := by push_cast; ring
      rw [hnaQ] at h1
      linarith
    have h2 := lt_of_mul_lt_mul_right key hd.le
    rw [Int.cast_neg, Int.cast_natCast]
    linarith
  · have key : q * (q.den:ℚ) ≤ (-((q.num.natAbs / q.den : ℕ) : ℚ)) * (q.den:ℚ) := by
      rw [Rat.mul_den_eq_num]
      have h1 : ((q.num.natAbs / q.den : ℕ) : ℚ) * (q.den:ℚ) ≤ ((q.num.natAbs : ℕ) : ℚ) := by
        calc ((q.num.natAbs / q.den : ℕ) : ℚ) * (q.den:ℚ)
            = (((q.num.natAbs / q.den) * q.den : ℕ) : ℚ) := by push_cast; ring
          _ ≤ ((q.num.natAbs : ℕ) : ℚ) := by exact_mod_cast Nat.div_mul_le_self _ _
      rw [hnaQ] at h1
      linarith
    have h2 := le_of_mul_le_mul_right key hd
    rw [Int.cast_neg, Int.cast_natCast]
    exact h2

theorem hashP_pow61 : (2:ℕ) ^ 61 ≡ 1 [MOD hashP] := by
  unfold Nat.ModEq hashP
  decide

theorem hash_pow_reduce (mm N : ℕ) (ee : ℤ)
    (hN : (N:ℚ) = (mm:ℚ) * (2:ℚ) ^ ee) :
    ((mm % hashP) * 2 ^ (Int.emod ee 61).toNat) % hashP = N % hashP := by
  have hr : (((Int.emod ee 61).toNat : ℕ) : ℤ) = Int.emod ee 61 :=
    Int.toNat_of_nonneg (Int.emod_nonneg _ (by norm_num))
  have h61 := Int.ediv_add_emod ee 61
  have hb1 : Int.ediv ee 61 = ee / 61 := rfl
  have hb2 : Int.emod ee 61 = ee % 61 := rfl
  rcases le_or_lt 0 (Int.ediv ee 61) with hq | hq
  · have hk : (((Int.ediv ee 61).toNat : ℕ) : ℤ) = Int.ediv ee 61 := Int.toNat_of_nonneg hq
    have hnat : N = mm * 2 ^ (Int.emod ee 61).toNat * (2 ^ 61) ^ (Int.ediv ee 61).toNat := by
      have hsplit : (2:ℚ) ^ ee
          = ((2:ℚ) ^ (61:ℕ)) ^ ((Int.ediv ee 61).toNat : ℕ)
            * (2:ℚ) ^ ((Int.emod ee 61).toNat : ℕ) := by
        rw [← zpow_natCast ((2:ℚ) ^ (61:ℕ)) (Int.ediv ee 61).toNat,
          ← zpow_natCast (2:ℚ) (Int.emod ee 61).toNat,
          ← zpow_natCast (2:ℚ) 61, ← zpow_mul,
          ← zpow_add₀ (by norm_num : (2:ℚ) ≠ 0)]
        congr 1
        push_cast [hr, hk]
        omega
      have hcast : ((mm * 2 ^ (Int.emod ee 61).toNat * (2 ^ 61) ^ (Int.ediv ee 61).toNat : ℕ)
          : ℚ) = (N : ℚ) := by
        rw [hN, hsplit]
        push_cast
        ring
      exact_mod_cast hcast.symm
    rw [hnat]
    have hmod1 : (mm % hashP) * 2 ^ (Int.emod ee 61).toNat
        ≡ mm * 2 ^ (Int.emod ee 61).toNat [MOD hashP] :=
      (Nat.mod_modEq mm hashP).mul_right _
    have hmod2 : mm * 2 ^ (Int.emod ee 61).toNat
        ≡ mm * 2 ^ (Int.emod ee 61).toNat * (2 ^ 61) ^ (Int.ediv ee 61).toNat [MOD hashP] := by
      have h1 : ((2:ℕ) ^ 61) ^ (Int.ediv ee 61).toNat ≡ 1 ^ (Int.ediv ee 61).toNat [MOD hashP] :=
        hashP_pow61.pow _
      have h2 := (Nat.ModEq.refl (mm * 2 ^ (Int.emod ee 61).toNat)).mul h1
      simpa using h2.symm
    exact hmod1.trans hmod2
  · have hk : (((-Int.ediv ee 61).toNat : ℕ) : ℤ) = -Int.ediv ee 61 :=
      Int.toNat_of_nonneg (by omega)
    have hnat : mm * 2 ^ (Int.emod ee 61).toNat = N * (2 ^ 61) ^ (-Int.ediv ee 61).toNat := by
      have hsplit : (2:ℚ) ^ ((Int.emod ee 61).toNat : ℕ)
          = (2:ℚ) ^ ee * ((2:ℚ) ^ (61:ℕ)) ^ ((-Int.ediv ee 61).toNat : ℕ) := by
        rw [← zpow_natCast ((2:ℚ) ^ (61:ℕ)) (-Int.ediv ee 61).toNat,
          ← zpow_natCast (2:ℚ) (Int.emod ee 61).toNat,
          ← zpow_natCast (2:ℚ) 61, ← zpow_mul,
          ← zpow_add₀ (by norm_num : (2:ℚ) ≠ 0)]
        congr 1
        push_cast [hr, hk]
        omega
      have hcast : ((mm * 2 ^ (Int.emod ee 61).toNat : ℕ) : ℚ)
          = ((N * (2 ^ 61) ^ (-Int.ediv ee 61).toNat : ℕ) : ℚ) := by
        push_cast
        rw [hsplit, hN]
        push_cast
        ring
      exact_mod_cast hcast
    have hmod1 : (mm % hashP) * 2 ^ (Int.emod ee 61).toNat
        ≡ mm * 2 ^ (Int.emod ee 61).toNat [MOD hashP] :=
      (Nat.mod_modEq mm hashP).mul_right _
    have hmod2 : N * (2 ^ 61) ^ (-Int.ediv ee 61).toNat ≡ N [MOD hashP] := by
      have h1 : ((2:ℕ) ^ 61) ^ (-Int.ediv ee 61).toNat ≡ 1 ^ (-Int.ediv ee 61).toNat
          [MOD hashP] := hashP_pow61.pow _
      have h2 := (Nat.ModEq.refl N).mul h1
      simpa using h2
    exact (hmod1.trans (hnat ▸ Nat.ModEq.refl _)).trans hmod2

theorem mpfHash_int (v : Mpf) (n : ℤ) (hw : v.Wf)
    (hcl : v.cls = .zero ∨ v.cls = .finite) (hval : v.val = (n : ℚ)) :
    mpfHash v = intHash n := by
  rcases v with ⟨nn, cl, mm, ee, pp⟩
  rcases hcl with hz | hf
  · cases (show cl = .zero from hz)
    have hn0 : n = 0 := by
      have h1 : ((0:ℤ) : ℚ) = (n : ℚ) := by
        rw [← hval]
        rfl
      exact_mod_cast h1.symm
    rw [hn0]
    rfl
  · cases (show cl = .finite from hf)
    obtain ⟨hp1, hm⟩ := hw
    obtain ⟨hm1, hm2⟩ := hm rfl
    replace hm1 : 2 ^ (pp - 1) ≤ mm := hm1
    have hm0 : (1:ℕ) ≤ mm := le_trans Nat.one_le_two_pow hm1
    have hmq : (0:ℚ) < (mm : ℚ) * (2:ℚ) ^ ee :=
      mul_pos (by exact_mod_cast hm0) (two_zpow_pos ee)
    have hvv : (Mpf.val ⟨nn, .finite, mm, ee, pp⟩ : ℚ)
        = (if nn then -1 else 1) * ((mm : ℚ) * (2:ℚ) ^ ee) := by
      unfold Mpf.val
      simp only
      ring
    cases nn with
    | false =>
      simp only [Bool.false_eq_true, if_false, one_mul] at hvv
      rw [hvv] at hval
      have hnpos : 0 < n := by
        have : (0:ℚ) < (n:ℚ) := hval ▸ hmq
        exact_mod_cast this
      have hN : ((n.natAbs : ℕ) : ℚ) = (mm : ℚ) * (2:ℚ) ^ ee := by
        rw [Int.cast_natAbs, abs_of_pos hnpos]
        exact hval.symm
      unfold mpfHash intHash
      simp only [Bool.false_eq_true, if_false, one_mul]
      rw [Int.sign_eq_one_of_pos hnpos, one_mul]
      exact_mod_cast congrArg (fun z : ℕ => (z : ℤ)) (hash_pow_reduce mm n.natAbs ee hN)
    | true =>
      simp only [if_true] at hvv
      rw [hvv] at hval
      have hnneg : n < 0 := by
        have : (n:ℚ) < 0 := by
          rw [← hval]
          simp only [neg_mul, one_mul, neg_neg]
          linarith
        exact_mod_cast this
      have hN : ((n.natAbs : ℕ) : ℚ) = (mm : ℚ) * (2:ℚ) ^ ee := by
        rw [Int.cast_natAbs, abs_of_neg hnneg]
        push_cast
        linarith
      unfold mpfHash intHash
      simp only [if_true]
      rw [Int.sign_eq_neg_one_of_neg hnneg]
      have hh := congrArg (fun z : ℕ => (z : ℤ)) (hash_pow_reduce mm n.natAbs ee hN)
      simp only at hh
      push_cast at hh ⊢
      linarith

/-! ### The claims -/

/-- The test suite's 53-bit value parsed from "123.456". -/
def mpf123456 : Mpf := parseLit ⟨.finite, false, 123456, 6, 3⟩ 10 53

/-- The test suite's 53-bit value parsed from "789.123". -/
def mpf789123 : Mpf := parseLit ⟨.finite, false, 789123, 6, 3⟩ 10 53

/-- C1: decoding the binary encoding of a well-formed Value reconstructs it
losslessly: a finite value (with precision and exponent within the 4-byte
header fields) decodes back structurally identical, so the decoded value has
zero relative error and re-encodes byte-identically; special classes decode
to the same class and value and also re-encode identically; in particular
parse("0.5",10,53) encodes to the bytes [8,53,0,0,0,0,0,0,0,128], which
decode back to exactly 1/2. -/
theorem claim_C1 :
    (∀ (nn : Bool) (mm : ℕ) (ee : ℤ) (pp d : ℕ),
      (⟨nn, .finite, mm, ee, pp⟩ : Mpf).Wf → pp < 4294967296 →
      -2147483648 ≤ encX ⟨nn, .finite, mm, ee, pp⟩ →
      encX ⟨nn, .finite, mm, ee, pp⟩ < 2147483648 →
      decode (encode ⟨nn, .finite, mm, ee, pp⟩) d = some ⟨nn, .finite, mm, ee, pp⟩ ∧
      (∀ w, decode (encode ⟨nn, .finite, mm, ee, pp⟩) d = some w →
        w.val = Mpf.val ⟨nn, .finite, mm, ee, pp⟩ ∧
        encode w = encode ⟨nn, .finite, mm, ee, pp⟩)) ∧
    (∀ (ng : Bool) (p d : ℕ),
      decode (encode (zeroAt ng p)) d = some (zeroAt ng d) ∧
      decode (encode (infAt ng p)) d = some (infAt ng d) ∧
      decode (encode (nanAt p)) d = some (nanAt d) ∧
      encode (zeroAt ng d) = encode (zeroAt ng p) ∧
      encode (infAt ng d) = encode (infAt ng p) ∧
      encode (nanAt d) = encode (nanAt p)) ∧
    encode (parseLit ⟨.finite, false, 5, 1, 0⟩ 10 53) = [8, 53, 0, 0, 0, 0, 0, 0, 0, 128] ∧
    decode [8, 53, 0, 0, 0, 0, 0, 0, 0, 128] 53
      = some (parseLit ⟨.finite, false, 5, 1, 0⟩ 10 53) ∧
    Mpf.val (parseLit ⟨.finite, false, 5, 1, 0⟩ 10 53) = 1/2 := by
  refine ⟨?_, ?_, by decide, by decide, by decide⟩
  · intro nn mm ee pp d hw hp32 hX1 hX2
    have h := decode_encode nn mm ee pp d hw hp32 hX1 hX2
    refine ⟨h, ?_⟩
    intro w hwdec
    rw [h] at hwdec
    cases hwdec
    exact ⟨rfl, rfl⟩
  · intro ng p d
    cases ng <;> exact ⟨rfl, rfl, rfl, rfl, rfl, rfl⟩

/-- C1 witness: the codec round-trip applied to the value 1/2 at 53 bits. -/
theorem witness_C1 :
    (⟨false, .finite, 2 ^ 52, -53, 53⟩ : Mpf).Wf ∧
    decode (encode ⟨false, .finite, 2 ^ 52, -53, 53⟩) 53
      = some ⟨false, .finite, 2 ^ 52, -53, 53⟩ :=
  ⟨by decide, (claim_C1.1 false (2 ^ 52) (-53) 53 53 (by decide) (by decide)
    (by decide) (by decide)).1⟩

/-- C2: format with digit_count 0 returns, with the value's own precision as
the precision-used, a digit string that parses back at the same base and
the value's precision to a mathematically equal Value, for every base in
[2,62]; in particular parse("123.456",10,53) formats to digit string
"123456" with decimal point position 3 and precision-used 53. -/
theorem claim_C2 :
    (∀ (v : Mpf) (b : ℕ), 2 ≤ b → b ≤ 62 → v.Wf → v.cls ≠ .nan →
      mEq (parseLit (formatMin v b).1 b v.prec) v = true ∧ (formatMin v b).2 = v.prec) ∧
    formatMin mpf123456 10 = (⟨.finite, false, 123456, 6, 3⟩, 53) := by
  refine ⟨?_, by decide⟩
  intro v b hb1 _ hw hnan
  refine ⟨(formatMin_roundtrip v b hb1 hw).2 hnan, ?_⟩
  rcases v with ⟨nn, cl, mm, ee, pp⟩
  cases cl <;> rfl

/-- C2 witness: the round-trip applied to the value 2 at precision 2 in
base 10. -/
theorem witness_C2 :
    (⟨false, .finite, 2, 0, 2⟩ : Mpf).Wf ∧
    mEq (parseLit (formatMin ⟨false, .finite, 2, 0, 2⟩ 10).1 10 2)
      ⟨false, .finite, 2, 0, 2⟩ = true :=
  ⟨by decide, (claim_C2.1 ⟨false, .finite, 2, 0, 2⟩ 10 (by decide) (by decide)
    (by decide) (by decide)).1⟩

/-- C3 (amended): for every finite well-formed Value and positive relative
error bound, f2q returns the continued-fraction convergent of smallest
denominator whose relative error is within the bound, as a plain integer
when that denominator is 1; the omitted bound defaults to 2^-(precision-1);
in particular on parse("123.456",10,53): bound 0.001 gives 247/2, bound 0.1
gives the integer 123, and the default bound gives 15432/125.  (The original
claim, minimality over all rationals rather than over the convergents, is
refuted by the counterexample theorem.) -/
theorem claim_C3 :
    (∀ (v : Mpf) (bound : ℚ), v.Wf → v.cls = .finite → 0 < bound →
      ∃ c : ℕ × ℕ,
        c ∈ convergents ((v.mant : ℚ) * (2:ℚ) ^ v.exp) ∧
        relOK ((v.mant : ℚ) * (2:ℚ) ^ v.exp) bound c = true ∧
        (∀ b ∈ convergents ((v.mant : ℚ) * (2:ℚ) ^ v.exp),
          relOK ((v.mant : ℚ) * (2:ℚ) ^ v.exp) bound b = true → c.2 ≤ b.2) ∧
        f2q v bound = some (if c.2 = 1
          then F2QRes.intRes (if v.neg then -(c.1 : ℤ) else (c.1 : ℤ))
          else F2QRes.ratRes (if v.neg then -(c.1 : ℤ) else (c.1 : ℤ)) c.2)) ∧
    (∀ v : Mpf, f2qDefault v = f2q v ((2:ℚ) ^ (1 - (v.prec : ℤ)))) ∧
    f2q mpf123456 (1/1000) = some (.ratRes 247 2) ∧
    f2q mpf123456 (1/10) = some (.intRes 123) ∧
    f2qDefault mpf123456 = some (.ratRes 15432 125) :=
  ⟨f2q_min_convergent, fun _ => rfl, by decide, by decide, by decide⟩

/-- C3 witness: the amended minimality applied to the 4-bit value 5/16 with
bound 3/50. -/
theorem witness_C3 :
    (⟨false, .finite, 10, -5, 4⟩ : Mpf).Wf ∧ (0:ℚ) < 3/50 ∧
    (∃ c : ℕ × ℕ,
      c ∈ convergents (((⟨false, .finite, 10, -5, 4⟩ : Mpf).mant : ℚ)
        * (2:ℚ) ^ (⟨false, .finite, 10, -5, 4⟩ : Mpf).exp) ∧
      relOK (((⟨false, .finite, 10, -5, 4⟩ : Mpf).mant : ℚ)
        * (2:ℚ) ^ (⟨false, .finite, 10, -5, 4⟩ : Mpf).exp) (3/50) c = true ∧
      (∀ b ∈ convergents (((⟨false, .finite, 10, -5, 4⟩ : Mpf).mant : ℚ)
          * (2:ℚ) ^ (⟨false, .finite, 10, -5, 4⟩ : Mpf).exp),
        relOK (((⟨false, .finite, 10, -5, 4⟩ : Mpf).mant : ℚ)
          * (2:ℚ) ^ (⟨false, .finite, 10, -5, 4⟩ : Mpf).exp) (3/50) b = true → c.2 ≤ b.2) ∧
      f2q ⟨false, .finite, 10, -5, 4⟩ (3/50) = some (if c.2 = 1
        then F2QRes.intRes (if (⟨false, .finite, 10, -5, 4⟩ : Mpf).neg
          then -(c.1 : ℤ) else (c.1 : ℤ))
        else F2QRes.ratRes (if (⟨false, .finite, 10, -5, 4⟩ : Mpf).neg
          then -(c.1 : ℤ) else (c.1 : ℤ)) c.2)) :=
  ⟨by decide, by norm_num,
    claim_C3.1 ⟨false, .finite, 10, -5, 4⟩ (3/50) (by decide) rfl (by norm_num)⟩

/-- C3 counterexample: at bound 3/50 on the 4-bit value 5/16, f2q returns
5/16 with denominator 16, yet the rational 3/10 has denominator 10 < 16 and
relative error 1/25 ≤ 3/50 — so f2q does not return the smallest
denominator among all rationals within the bound. -/
theorem cex_C3 :
    f2q ⟨false, .finite, 10, -5, 4⟩ ((3:ℚ)/50) = some (.ratRes 5 16) ∧
    |(3:ℚ)/10 - Mpf.val ⟨false, .finite, 10, -5, 4⟩|
      ≤ (3/50) * Mpf.val ⟨false, .finite, 10, -5, 4⟩ ∧
    (10:ℕ) < 16 := by
  refine ⟨by decide, ?_, by norm_num⟩
  rw [show Mpf.val ⟨false, .finite, 10, -5, 4⟩ = 5/16 from by decide]
  rw [abs_le]
  constructor <;> norm_num

/-- C4: changing precision rounds the exact mathematical value directly at
the target precision with ties to even: fRound v p = ofRat p v.val for every
finite well-formed v; parsing "123.456" at 128 bits then rounding to 64
equals parsing it at 64 directly; and rounding the 256-bit base-16 values
ffffffffffffffffe8000000000000000 and fffffffffffffffff8000000000000000 to
64 bits both give 2^132, whose 17-digit base-16 representation is
10000000000000000 with point position 34 at precision 64. -/
theorem claim_C4 :
    (∀ (v : Mpf) (p : ℕ), v.Wf → v.cls = .finite → 1 ≤ p →
      fRound v p = ofRat p v.val) ∧
    fRound (parseLit ⟨.finite, false, 123456, 6, 3⟩ 10 128) 64
      = parseLit ⟨.finite, false, 123456, 6, 3⟩ 10 64 ∧
    fRound (parseLit ⟨.finite, false, 0xffffffffffffffffe8000000000000000, 33, 33⟩ 16 256) 64
      = ⟨false, .finite, 2 ^ 63, 69, 64⟩ ∧
    fRound (parseLit ⟨.finite, false, 0xfffffffffffffffff8000000000000000, 33, 33⟩ 16 256) 64
      = ⟨false, .finite, 2 ^ 63, 69, 64⟩ ∧
    formatAt (⟨false, .finite, 2 ^ 63, 69, 64⟩ : Mpf) 16 17
      = (⟨.finite, false, 16 ^ 16, 17, 34⟩, 64) :=
  ⟨fRound_correct, by decide, by decide, by decide, by decide⟩

/-- C4 witness: precision change applied to the value 2 at precision 2,
rounded to 1 bit. -/
theorem witness_C4 :
    (⟨false, .finite, 2, 0, 2⟩ : Mpf).Wf ∧
    fRound ⟨false, .finite, 2, 0, 2⟩ 1 = ofRat 1 (Mpf.val ⟨false, .finite, 2, 0, 2⟩) :=
  ⟨by decide, claim_C4.1 ⟨false, .finite, 2, 0, 2⟩ 1 (by decide) rfl (by decide)⟩

/-- C5: sqrt of a negative finite Value is NaN; a NaN operand propagates
through add, sub, mul and div; infinities follow the IEEE-754-like table
(∞+∞ of equal sign is ∞, ∞−∞ is NaN, ∞·0 is NaN, 0/0 is NaN, finite/0 is ∞
with the XOR of the signs, sqrt(−0) = −0): arithmetic on special values
always yields a Value instead of raising. -/
theorem claim_C5 :
    (∀ v : Mpf, v.cls = .finite → v.val < 0 → fSqrt v = nanAt v.prec) ∧
    (∀ u v : Mpf, u.cls = .nan → (fAdd u v).cls = .nan ∧ (fSub u v).cls = .nan ∧
      (fMul u v).cls = .nan ∧ (fDiv u v).cls = .nan) ∧
    (∀ u v : Mpf, v.cls = .nan → (fAdd u v).cls = .nan ∧ (fSub u v).cls = .nan ∧
      (fMul u v).cls = .nan ∧ (fDiv u v).cls = .nan) ∧
    (∀ (s t : Bool) (p q : ℕ),
      fAdd (infAt s p) (infAt s q) = infAt s (max p q) ∧
      fSub (infAt s p) (infAt s q) = nanAt (max p q) ∧
      fMul (infAt s p) (zeroAt t q) = nanAt (max p q) ∧
      fDiv (zeroAt s p) (zeroAt t q) = nanAt (max p q)) ∧
    (∀ (u : Mpf) (t : Bool) (q : ℕ), u.cls = .finite →
      fDiv u (zeroAt t q) = infAt (xor u.neg t) (max u.prec q)) ∧
    (∀ p : ℕ, fSqrt (zeroAt true p) = zeroAt true p) ∧
    (fDiv (zeroAt false 53) (zeroAt false 53)).cls = .nan := by
  refine ⟨?_, ?_, ?_, ?_, ?_, fun p => rfl, rfl⟩
  · intro v hf hneg
    rcases v with ⟨nn, cl, mm, ee, pp⟩
    cases (show cl = .finite from hf)
    have hnn : nn = true := by
      by_contra hcon
      have h0 : nn = false := by
        cases nn
        · rfl
        · exact absurd rfl hcon
      rw [h0] at hneg
      have h1 : (0:ℚ) ≤ Mpf.val ⟨false, .finite, mm, ee, pp⟩ := by
        unfold Mpf.val
        simp only [Bool.false_eq_true, if_false, one_mul]
        positivity
      linarith
    rw [hnn]
    rfl
  · intro u v h
    rcases u with ⟨un, uc, um, ue, up⟩
    rcases v with ⟨vn, vc, vm, ve, vp⟩
    cases (show uc = .nan from h)
    cases vc <;> exact ⟨rfl, rfl, rfl, rfl⟩
  · intro u v h
    rcases u with ⟨un, uc, um, ue, up⟩
    rcases v with ⟨vn, vc, vm, ve, vp⟩
    cases (show vc = .nan from h)
    cases uc <;> exact ⟨rfl, rfl, rfl, rfl⟩
  · intro s t p q
    refine ⟨by cases s <;> rfl, by cases s <;> rfl, rfl, rfl⟩
  · intro u t q h
    rcases u with ⟨un, uc, um, ue, up⟩
    cases (show uc = .finite from h)
    rfl

/-- C5 witness: sqrt of the negative finite value −2 at precision 2 is
NaN. -/
theorem witness_C5 :
    Mpf.val ⟨true, .finite, 2, 0, 2⟩ < 0 ∧
    fSqrt ⟨true, .finite, 2, 0, 2⟩ = nanAt 2 :=
  ⟨by decide, claim_C5.1 ⟨true, .finite, 2, 0, 2⟩ rfl (by decide)⟩

/-- C6: the digits operation fails with a RangeError exactly when the base
lies outside [2,62] or the digit count is negative, and returns a digit
tuple for every base in [2,62] and nonnegative digit count. -/
theorem claim_C6 :
    ∀ (v : Mpf) (b : ℕ) (d : ℤ),
      ((∃ t, fDigits v b d = Except.ok t) ↔ (2 ≤ b ∧ b ≤ 62 ∧ 0 ≤ d)) ∧
      (fDigits v b d = Except.error GmpyErr.rangeError ↔ ¬(2 ≤ b ∧ b ≤ 62 ∧ 0 ≤ d)) := by
  intro v b d
  unfold fDigits
  by_cases h1 : b < 2 ∨ 62 < b
  · rw [if_pos h1]
    constructor
    · constructor
      · rintro ⟨t, ht⟩
        exact absurd ht (by simp)
      · intro h
        omega
    · constructor
      · intro _
        omega
      · intro _
        rfl
  · rw [if_neg h1]
    by_cases h2 : d < 0
    · rw [if_pos h2]
      constructor
      · constructor
        · rintro ⟨t, ht⟩
          exact absurd ht (by simp)
        · intro h
          omega
      · constructor
        · intro _
          omega
        · intro _
          rfl
    · rw [if_neg h2]
      by_cases h3 : d = 0
      · rw [if_pos h3]
        constructor
        · constructor
          · intro _
            omega
          · intro _
            exact ⟨formatMin v b, rfl⟩
        · constructor
          · intro hcon
            exact absurd hcon (by simp)
          · intro hcon
            exact absurd (by omega) hcon
      · rw [if_neg h3]
        constructor
        · constructor
          · intro _
            omega
          · intro _
            exact ⟨formatAt v b d.toNat, rfl⟩
        · constructor
          · intro hcon
            exact absurd hcon (by simp)
          · intro hcon
            exact absurd (by omega) hcon

/-- C7: the allocation cache is transparent — every two cache
configurations and starting pools give identical numeric results on every
operation sequence; concretely, a two-operation sequence on the parsed
test values gives the same results with an 8-entry cache as with the cache
disabled, while the fresh-allocation counts are 1 and 2. -/
theorem claim_C7 :
    (∀ (ops : List (FOp × Mpf × Mpf)) (cfg cfg' : CacheCfg) (st st' : List ℕ),
      (runOps cfg st ops).1 = (runOps cfg' st' ops).1) ∧
    (runOps ⟨8, 128⟩ [] [(.addOp, mpf123456, mpf789123), (.mulOp, mpf123456, mpf789123)]).1
      = (runOps ⟨0, 128⟩ []
          [(.addOp, mpf123456, mpf789123), (.mulOp, mpf123456, mpf789123)]).1 ∧
    (runOps ⟨8, 128⟩ []
      [(.addOp, mpf123456, mpf789123), (.mulOp, mpf123456, mpf789123)]).2.2 = 1 ∧
    (runOps ⟨0, 128⟩ []
      [(.addOp, mpf123456, mpf789123), (.mulOp, mpf123456, mpf789123)]).2.2 = 2 :=
  ⟨runOps_results, by decide, by decide, by decide⟩

/-- C8: setting the Context precision below the architectural minimum
(in particular to any non-positive value) fails with an
invalid-configuration error, leaves the context unchanged and substitutes
no default; a valid request sets exactly the requested precision; in
particular setting precision 0 on a 53-bit context fails and preserves the
context. -/
theorem claim_C8 :
    (∀ (c : Context) (p : ℤ), p ≤ 0 ∨ p < (minPrec : ℤ) →
      applySetPrecision c p = (c, some GmpyErr.invalidConfiguration)) ∧
    (∀ (c : Context) (p : ℤ), (minPrec : ℤ) ≤ p →
      applySetPrecision c p = ({c with precision := p.toNat}, none)) ∧
    applySetPrecision ⟨53, .nearest, -1000, 1000⟩ 0
      = (⟨53, .nearest, -1000, 1000⟩, some GmpyErr.invalidConfiguration) := by
  have hmp : (minPrec : ℤ) = 2 := rfl
  refine ⟨?_, ?_, rfl⟩
  · intro c p hp
    unfold applySetPrecision
    rw [if_pos (by omega)]
  · intro c p hp
    unfold applySetPrecision
    rw [if_neg (by omega)]

/-- C8 witness: the failure applied to precision 0 on a 10-bit context. -/
theorem witness_C8 :
    ((0:ℤ) ≤ 0 ∨ (0:ℤ) < (minPrec : ℤ)) ∧
    applySetPrecision ⟨10, .nearest, 0, 0⟩ 0
      = (⟨10, .nearest, 0, 0⟩, some GmpyErr.invalidConfiguration) :=
  ⟨Or.inl (le_refl 0), claim_C8.1 ⟨10, .nearest, 0, 0⟩ 0 (Or.inl (le_refl 0))⟩

/-- C9: a Value mathematically equal to an integer hashes identically to
that integer: for well-formed zero or finite v with v.val = n,
mpfHash v = intHash n; in particular the 53-bit value 23 hashes like the
integer 23. -/
theorem claim_C9 :
    (∀ (v : Mpf) (n : ℤ), v.Wf → (v.cls = .zero ∨ v.cls = .finite) →
      v.val = (n : ℚ) → mpfHash v = intHash n) ∧
    mpfHash (ofRat 53 23) = intHash 23 :=
  ⟨mpfHash_int, by decide⟩

/-- C9 witness: the hash contract applied to the value 2 at precision 2. -/
theorem witness_C9 :
    (⟨false, .finite, 2, 0, 2⟩ : Mpf).Wf ∧
    mpfHash ⟨false, .finite, 2, 0, 2⟩ = intHash 2 :=
  ⟨by decide, claim_C9.1 ⟨false, .finite, 2, 0, 2⟩ 2 (by decide) (Or.inr rfl) (by decide)⟩

/-- C10: integer conversion truncates toward zero — it is the floor of the
value when nonnegative and the ceiling when negative — and trunc, floor,
ceil produce the corresponding integral Values; concretely for the 53-bit
±123.456: int gives ±123, trunc(−123.456) = −123, floor(−123.456) = −124,
ceil(−123.456) = −123. -/
theorem claim_C10 :
    (∀ v : Mpf, (0 ≤ v.val → fToZ v = ⌊v.val⌋) ∧ (v.val < 0 → fToZ v = ⌈v.val⌉)) ∧
    (∀ v : Mpf, v.cls = .finite →
      fTrunc v = ofRat v.prec ((fToZ v : ℤ) : ℚ) ∧
      fFloor v = ofRat v.prec ((⌊v.val⌋ : ℤ) : ℚ) ∧
      fCeil v = ofRat v.prec ((⌈v.val⌉ : ℤ) : ℚ)) ∧
    fToZ mpf123456 = 123 ∧ fToZ (fNeg mpf123456) = -123 ∧
    fTrunc (fNeg mpf123456) = ofRat 53 (-123) ∧
    fFloor (fNeg mpf123456) = ofRat 53 (-124) ∧
    fCeil (fNeg mpf123456) = ofRat 53 (-123) := by
  refine ⟨?_, ?_, by decide, by decide, by decide, by decide, by decide⟩
  · intro v
    exact ⟨fun h => truncQ_floor v.val h, fun h => truncQ_ceil v.val h⟩
  · intro v hf
    rcases v with ⟨nn, cl, mm, ee, pp⟩
    cases (show cl = .finite from hf)
    exact ⟨rfl, rfl, rfl⟩

/-- C10 witness: toward-zero conversion applied to the nonnegative value 2
at precision 2. -/
theorem witness_C10 :
    (0:ℚ) ≤ Mpf.val ⟨false, .finite, 2, 0, 2⟩ ∧
    fToZ ⟨false, .finite, 2, 0, 2⟩ = ⌊Mpf.val ⟨false, .finite, 2, 0, 2⟩⌋ :=
  ⟨by decide, (claim_C10.1 ⟨false, .finite, 2, 0, 2⟩).1 (by decide)⟩

end Gmpy
